import Mathlib

/-!
Verification development for the doctor-directory scraping and insurance
verification program (`backend/helpers/funtion.py`, `backend/webmd_insurance.py`).

Strings are modelled as lists of character codes (`List Nat`), matching Python
strings as sequences of code points.  The Python string operations used by the
program (`lower`, `upper`, `re.sub`, `re.search`, `str.replace`, `str.split`,
`str.strip`, substring `in`) are embedded at the ASCII level, which covers every
character class the program's patterns mention.
-/

namespace Scraper

/-- Character codes of a Lean string literal, used to write concrete inputs. -/
def codes (s : String) : List Nat :=
  s.toList.map Char.toNat

/-- ASCII lowercasing of one character code (Python `str.lower`). -/
def toLowerCode (n : Nat) : Nat :=
  if 65 ≤ n ∧ n ≤ 90 then n + 32 else n

/-- ASCII uppercasing of one character code (Python `str.upper`). -/
def toUpperCode (n : Nat) : Nat :=
  if 97 ≤ n ∧ n ≤ 122 then n - 32 else n

/-- Lowercase a whole string. -/
def lowerL (l : List Nat) : List Nat :=
  l.map toLowerCode

/-- Uppercase a whole string. -/
def upperL (l : List Nat) : List Nat :=
  l.map toUpperCode

/-- Python regex word character (`\w` at the ASCII level): letters, digits, `_`. -/
def isWordCode (n : Nat) : Bool :=
  (48 ≤ n && n ≤ 57) || (65 ≤ n && n ≤ 90) || (97 ≤ n && n ≤ 122) || n == 95

/-- Python regex whitespace (`\s` at the ASCII level). -/
def isSpaceCode (n : Nat) : Bool :=
  n == 32 || n == 9 || n == 10 || n == 11 || n == 12 || n == 13

/-- Substring test, Python's `needle in haystack`. -/
def containsSeq (p : List Nat) : List Nat → Bool
  | [] => p.isEmpty
  | c :: rest => p.isPrefixOf (c :: rest) || containsSeq p rest

/-- Word-boundary check after a token: the next character must be a non-word
character, or the string must end (`\b` on the right of a match). -/
def bOk : List Nat → Bool
  | [] => true
  | c :: _ => !isWordCode c

/-!
## Name normalization (`_normalize_name` in funtion.py)

Pipeline: lowercase; `re.sub(r"dr\.?", "")`; `re.sub(r"[.,]", "")`;
`re.sub(r"\b(md|do|phd|dds)\b", "")`; `re.sub(r"\s+", " ")`;
`str.replace("sarah", "sara")`; `str.strip()`.
Character codes: d=100 r=114 .=46 ,=44 m=109 o=111 p=112 h=104 s=115
a=97 space=32.
-/

/-- `re.sub(r"dr\.?", "", name)`: remove every occurrence of `dr` optionally
followed by a period, scanning left to right without overlap (greedy, so `dr.`
is removed as a whole). -/
def subDr : List Nat → List Nat
  | [] => []
  | [c] => [c]
  | [c, d] => if c = 100 ∧ d = 114 then [] else c :: subDr [d]
  | c :: d :: e :: rest =>
      if c = 100 ∧ d = 114 ∧ e = 46 then subDr rest
      else if c = 100 ∧ d = 114 then subDr (e :: rest)
      else c :: subDr (d :: e :: rest)

/-- `re.sub(r"[.,]", "", name)`: drop periods and commas. -/
def subPunct (l : List Nat) : List Nat :=
  l.filter fun c => !(c == 46 || c == 44)

/-- Does a two-letter degree token (`md` or `do`) consisting of `c`, `d` match
here, with the required word boundary on the right supplied by `rest`? -/
def tok2 (c d : Nat) (rest : List Nat) : Bool :=
  ((c == 109 && d == 100) || (c == 100 && d == 111)) && bOk rest

/-- Does a three-letter degree token (`phd` or `dds`) consisting of `c`, `d`,
`e` match here, with the required word boundary on the right? -/
def tok3 (c d e : Nat) (rest : List Nat) : Bool :=
  ((c == 112 && d == 104 && e == 100) || (c == 100 && d == 100 && e == 115)) && bOk rest

/-- `re.sub(r"\b(md|do|phd|dds)\b", "", name)`: scan left to right; `p` records
whether the previous character is a word character (so the left `\b` fails).
After a removed token the scan resumes with `p = true` — the token's last
letter is a word character. -/
def subDeg (p : Bool) : List Nat → List Nat
  | [] => []
  | [c] => [c]
  | [c, d] => if !p && tok2 c d [] then [] else c :: subDeg (isWordCode c) [d]
  | c :: d :: e :: rest =>
      if !p && tok2 c d (e :: rest) then subDeg true (e :: rest)
      else if !p && tok3 c d e rest then subDeg true rest
      else c :: subDeg (isWordCode c) (d :: e :: rest)

/-- `re.sub(r"\s+", " ", name)`: replace every whitespace run by one space;
`prevSpace` records whether we are inside a run already emitted as one space. -/
def collapseAux (prevSpace : Bool) : List Nat → List Nat
  | [] => []
  | c :: rest =>
      if isSpaceCode c then
        if prevSpace then collapseAux true rest else 32 :: collapseAux true rest
      else c :: collapseAux false rest

/-- Whitespace collapsing, starting outside any run. -/
def collapseWs (l : List Nat) : List Nat :=
  collapseAux false l

/-- `name.replace("sarah", "sara")`: replace every occurrence left to right
without overlap (`s a r a h` = 115 97 114 97 104). -/
def replSarah : List Nat → List Nat
  | [] => []
  | [a] => [a]
  | [a, b] => [a, b]
  | [a, b, c] => [a, b, c]
  | [a, b, c, d] => [a, b, c, d]
  | a :: b :: c :: d :: e :: rest =>
      if a = 115 ∧ b = 97 ∧ c = 114 ∧ d = 97 ∧ e = 104 then
        115 :: 97 :: 114 :: 97 :: replSarah rest
      else a :: replSarah (b :: c :: d :: e :: rest)

/-- Leading part of `str.strip()`. -/
def stripLead (l : List Nat) : List Nat :=
  l.dropWhile isSpaceCode

/-- Trailing part of `str.strip()`: remove the maximal all-whitespace suffix. -/
def stripTrail : List Nat → List Nat
  | [] => []
  | c :: rest => if stripTrail rest = [] ∧ isSpaceCode c then [] else c :: stripTrail rest

/-- `str.strip()`. -/
def pyStrip (l : List Nat) : List Nat :=
  stripLead (stripTrail l)

/-- `_normalize_name` (funtion.py): the full normalization pipeline, including
the `sarah → sara` alias substitution. -/
def normalizeName (l : List Nat) : List Nat :=
  pyStrip (replSarah (collapseWs (subDeg false (subPunct (subDr (lowerL l))))))

/-- `str.split()` with no argument: split on whitespace runs, discarding empty
pieces (so the empty or all-whitespace string yields no tokens). -/
def pySplitAux (cur : List Nat) : List Nat → List (List Nat)
  | [] => if cur = [] then [] else [cur.reverse]
  | c :: rest =>
      if isSpaceCode c then
        if cur = [] then pySplitAux [] rest else cur.reverse :: pySplitAux [] rest
      else pySplitAux (c :: cur) rest

/-- `str.split()` on a whole string. -/
def pySplit (l : List Nat) : List (List Nat) :=
  pySplitAux [] l

/-!
## Entity matcher (`_find_doctor_in_results` in funtion.py)
-/

/-- One scraped directory listing entry. -/
structure Doctor where
  name : String
  url : String
deriving DecidableEq, Repr

/-- The token-subset predicate: every whitespace-separated token of the
normalized target name occurs as a substring of the normalized candidate
name (`all(part in doctor_norm for part in target_parts)`). -/
def matchesTarget (target : String) (d : Doctor) : Bool :=
  (pySplit (normalizeName (codes target))).all fun part =>
    containsSeq part (normalizeName (codes d.name))

/-- `_find_doctor_in_results`: return the first candidate in crawl order that
satisfies the token-subset predicate, `none` when no candidate does. -/
def findDoctor (doctors : List Doctor) (target : String) : Option Doctor :=
  doctors.find? (matchesTarget target)

/-!
## Directory-crawl merge (`_scrape_doctors_from_webmd` in funtion.py)

`page_results = await asyncio.gather(..., return_exceptions=True)` produces a
list of per-page results, each either a list of entries or an exception; the
collection loop skips exceptions, appends non-empty lists and counts them; the
final `list({d["url"]: d for d in all_doctors}.values())` deduplicates by url
with Python dict semantics (first-insertion position, last-written value).
-/

/-- One step of building a Python dict keyed by url: an existing key keeps its
position and receives the new value; a new key is appended at the end. -/
def dictInsert (m : List (String × Doctor)) (k : String) (v : Doctor) :
    List (String × Doctor) :=
  if m.any (fun p => p.1 = k) then
    m.map fun p => if p.1 = k then (k, v) else p
  else
    m ++ [(k, v)]

/-- `{d["url"]: d for d in doctors}` as an association list in key-insertion
order. -/
def buildUrlDict (ds : List Doctor) : List (String × Doctor) :=
  ds.foldl (fun m d => dictInsert m d.url d) []

/-- `list({d["url"]: d for d in doctors}.values())`. -/
def dedupByUrl (ds : List Doctor) : List Doctor :=
  (buildUrlDict ds).map Prod.snd

/-- Result of one concurrent page fetch: a list of entries, or an exception
(`asyncio.gather` with `return_exceptions=True`). -/
inductive PageResult where
  | ok : List Doctor → PageResult
  | exc : PageResult
deriving DecidableEq, Repr

/-- The entries a page result carries (an exception carries none). -/
def pageEntries : PageResult → List Doctor
  | .ok ds => ds
  | .exc => []

/-- Is the result a non-exception result? -/
def isOkResult : PageResult → Bool
  | .ok _ => true
  | .exc => false

/-- One iteration of the collection loop: exceptions are skipped, truthy
(non-empty) lists are appended. -/
def collectStep (acc : List Doctor) (r : PageResult) : List Doctor :=
  match r with
  | .ok ds => if ds.isEmpty then acc else acc ++ ds
  | .exc => acc

/-- The collection loop over all page results in page order. -/
def collectAll (rs : List PageResult) : List Doctor :=
  rs.foldl collectStep []

/-- One iteration of the `successful_pages` counter. -/
def countStep (n : Nat) (r : PageResult) : Nat :=
  match r with
  | .ok ds => if ds.isEmpty then n else n + 1
  | .exc => n

/-- `successful_pages`: the number of non-exception, non-empty (truthy)
results. -/
def successfulPages (rs : List PageResult) : Nat :=
  rs.foldl countStep 0

/-- The merged, deduplicated output of `_scrape_doctors_from_webmd`. -/
def scrapeDoctorsMerge (rs : List PageResult) : List Doctor :=
  dedupByUrl (collectAll rs)

/-!
## Insurance-list merge (`_scrape_doctor_overview` in funtion.py)

`doctor_info["insurance_accepted"].extend(verified_insurance)` followed by
`list(dict.fromkeys(...))`.
-/

/-- One step of `dict.fromkeys`: a key already present keeps its position, a
new key is appended. -/
def keyInsert (ks : List String) (k : String) : List String :=
  if k ∈ ks then ks else ks ++ [k]

/-- `list(dict.fromkeys(l))`. -/
def pyFromkeys (l : List String) : List String :=
  l.foldl keyInsert []

/-- The merge of `_scrape_doctor_overview`: the verified values are appended
after the passively extracted ones, then the combined list is deduplicated. -/
def mergeAcceptedInsurance (passive verified : List String) : List String :=
  pyFromkeys (passive ++ verified)

/-- Modelled from the spec's words for comparison: keep each distinct string
exactly once, in the order of its first occurrence. -/
def specDedup : List String → List String
  | [] => []
  | x :: rest => x :: specDedup (rest.filter fun y => y ≠ x)
termination_by l => l.length
decreasing_by
  simp only [List.length_cons]
  exact Nat.lt_succ_of_le (List.length_filter_le _ _)

/-!
## NPI address selection (`_extract_best_address_from_npi` and
`_format_npi_address` in funtion.py)
-/

/-- One NPI address record; a field absent from the JSON is `none`. -/
structure NpiAddress where
  address_purpose : Option String
  address_1 : Option String
  address_2 : Option String
  city : Option String
  state : Option String
  postal_code : Option String
deriving DecidableEq, Repr

/-- Python truthiness of `addr.get(field)`: present and non-empty. -/
def truthy : Option String → Bool
  | none => false
  | some s => !(s == "")

/-- Postal-code cleaning: a value longer than 5 characters is cut to its
first 5 characters. -/
def truncPostal (p : String) : String :=
  if 5 < p.toList.length then String.mk (p.toList.take 5) else p

/-- `_format_npi_address`: join the truthy fields with `", "`, in the fixed
field order, cleaning the postal code. -/
def formatNpiAddress (a : NpiAddress) : String :=
  String.intercalate ", "
    ((if truthy a.address_1 then [a.address_1.getD ""] else []) ++
     (if truthy a.address_2 then [a.address_2.getD ""] else []) ++
     (if truthy a.city then [a.city.getD ""] else []) ++
     (if truthy a.state then [a.state.getD ""] else []) ++
     (if truthy a.postal_code then [truncPostal (a.postal_code.getD "")] else []))

/-- `addr.get("address_purpose") == "LOCATION"`. -/
def isLocation (a : NpiAddress) : Bool :=
  a.address_purpose == some "LOCATION"

/-- `addr.get("address_purpose") == "MAILING"`. -/
def isMailing (a : NpiAddress) : Bool :=
  a.address_purpose == some "MAILING"

/-- `_extract_best_address_from_npi`: `none` on an empty list; otherwise the
first LOCATION address, else the first MAILING address, else the first
address, formatted. -/
def extractBestAddressFromNpi (addresses : List NpiAddress) : Option String :=
  match addresses with
  | [] => none
  | a0 :: _ =>
    match addresses.find? isLocation with
    | some a => some (formatNpiAddress a)
    | none =>
      match addresses.find? isMailing with
      | some a => some (formatNpiAddress a)
      | none => some (formatNpiAddress a0)

/-!
## State extraction (`_extract_state_from_address` in funtion.py)

The address is uppercased and scanned with `re.findall(r'\b[A-Z]{2}\b', ...)`;
the last match is looked up in the abbreviation table; on failure (or no
match) every full state name is tried as a substring of the lowercased
address, in the table's insertion order; otherwise the result is `None`.
-/

/-- Is the character code an ASCII uppercase letter (`[A-Z]`)? -/
def isUpperCode (n : Nat) : Bool :=
  65 ≤ n && n ≤ 90

/-- `re.findall(r'\b[A-Z]{2}\b', s)`: all two-uppercase-letter tokens carrying
a word boundary on both sides, left to right; `prev` records whether the
previous character is a word character (which would break the left `\b`). -/
def findUU (prev : Bool) : List Nat → List (List Nat)
  | [] => []
  | [_] => []
  | a :: b :: rest =>
      if !prev && isUpperCode a && isUpperCode b && bOk rest then
        [a, b] :: findUU true rest
      else
        findUU (isWordCode a) (b :: rest)

/-- The `state_abbrev_to_name` table, in the code's insertion order. -/
def stateAbbrevToName : List (String × String) :=
  [("AL", "alabama"), ("AK", "alaska"), ("AZ", "arizona"), ("AR", "arkansas"),
   ("CA", "california"), ("CO", "colorado"), ("CT", "connecticut"), ("DE", "delaware"),
   ("FL", "florida"), ("GA", "georgia"), ("HI", "hawaii"), ("ID", "idaho"),
   ("IL", "illinois"), ("IN", "indiana"), ("IA", "iowa"), ("KS", "kansas"),
   ("KY", "kentucky"), ("LA", "louisiana"), ("ME", "maine"), ("MD", "maryland"),
   ("MA", "massachusetts"), ("MI", "michigan"), ("MN", "minnesota"), ("MS", "mississippi"),
   ("MO", "missouri"), ("MT", "montana"), ("NE", "nebraska"), ("NV", "nevada"),
   ("NH", "new-hampshire"), ("NJ", "new-jersey"), ("NM", "new-mexico"), ("NY", "new-york"),
   ("NC", "north-carolina"), ("ND", "north-dakota"), ("OH", "ohio"), ("OK", "oklahoma"),
   ("OR", "oregon"), ("PA", "pennsylvania"), ("RI", "rhode-island"), ("SC", "south-carolina"),
   ("SD", "south-dakota"), ("TN", "tennessee"), ("TX", "texas"), ("UT", "utah"),
   ("VT", "vermont"), ("VA", "virginia"), ("WA", "washington"), ("WV", "west-virginia"),
   ("WI", "wisconsin"), ("WY", "wyoming")]

/-- The `state_names` table (full name → URL format), in the code's insertion
order — the order matters for the substring fallback. -/
def stateNames : List (String × String) :=
  [("alabama", "alabama"), ("alaska", "alaska"), ("arizona", "arizona"),
   ("arkansas", "arkansas"), ("california", "california"), ("colorado", "colorado"),
   ("connecticut", "connecticut"), ("delaware", "delaware"), ("florida", "florida"),
   ("georgia", "georgia"), ("hawaii", "hawaii"), ("idaho", "idaho"),
   ("illinois", "illinois"), ("indiana", "indiana"), ("iowa", "iowa"),
   ("kansas", "kansas"), ("kentucky", "kentucky"), ("louisiana", "louisiana"),
   ("maine", "maine"), ("maryland", "maryland"), ("massachusetts", "massachusetts"),
   ("michigan", "michigan"), ("minnesota", "minnesota"), ("mississippi", "mississippi"),
   ("missouri", "missouri"), ("montana", "montana"), ("nebraska", "nebraska"),
   ("nevada", "nevada"), ("new hampshire", "new-hampshire"), ("new jersey", "new-jersey"),
   ("new mexico", "new-mexico"), ("new york", "new-york"),
   ("north carolina", "north-carolina"), ("north dakota", "north-dakota"),
   ("ohio", "ohio"), ("oklahoma", "oklahoma"), ("oregon", "oregon"),
   ("pennsylvania", "pennsylvania"), ("rhode island", "rhode-island"),
   ("south carolina", "south-carolina"), ("south dakota", "south-dakota"),
   ("tennessee", "tennessee"), ("texas", "texas"), ("utah", "utah"),
   ("vermont", "vermont"), ("virginia", "virginia"), ("washington", "washington"),
   ("west virginia", "west-virginia"), ("wisconsin", "wisconsin"),
   ("wyoming", "wyoming")]

/-- `state_abbrev_to_name.get(abbrev)` (the table's keys are unique, so the
first hit is the dict entry). -/
def lookupAbbrev (ab : List Nat) : Option String :=
  (stateAbbrevToName.find? fun p => codes p.1 = ab).map fun p => p.2

/-- `_extract_state_from_address`: empty address yields `None`; otherwise the
last `\b[A-Z]{2}\b` token of the UPPERCASED address is looked up as an
abbreviation; when that fails, the first full state name occurring as a
substring of the lowercased address wins; otherwise `None`. -/
def extractStateFromAddress (address : String) : Option String :=
  if address = "" then none
  else
    let fromAbbrev :=
      match (findUU false (upperL (codes address))).getLast? with
      | some ab => lookupAbbrev ab
      | none => none
    match fromAbbrev with
    | some s => some s
    | none =>
      (stateNames.find? fun p => containsSeq (codes p.1) (lowerL (codes address))).map
        fun p => p.2

/-- Modelled from the claim's words, for comparison with the code: identical
to `extractStateFromAddress` except that the two-uppercase-letter tokens are
taken from the address as given, without first uppercasing it. -/
def extractStateClaimed (address : String) : Option String :=
  if address = "" then none
  else
    let fromAbbrev :=
      match (findUU false (codes address)).getLast? with
      | some ab => lookupAbbrev ab
      | none => none
    match fromAbbrev with
    | some s => some s
    | none =>
      (stateNames.find? fun p => containsSeq (codes p.1) (lowerL (codes address))).map
        fun p => p.2

/-!
## Classification engine

`_check_insurance_in_new_tab` (funtion.py), result-analysis part: first each
`div.verify-text` element is tested for containing `"accepts"` and the
lowercased insurance name; then the lowercased page content is searched for the
acceptance regexes; then for the rejection regexes; unmatched text yields
`False`.  (The synchronous variant `check_insurance_acceptance` in
webmd_insurance.py is identical except for one extra rejection pattern.)

The regexes are alternating literal pieces separated by `.*`; `.` does not
match a newline (code 10), while the unanchored search may skip any prefix.
-/

/-- Match the remaining literal pieces, each preceded by a `.*` gap that must
not contain a newline. -/
def gapMatch : List (List Nat) → List Nat → Bool
  | [], _ => true
  | p :: ps, l =>
      (List.range (l.length + 1)).any fun i =>
        ((l.take i).all fun c => c ≠ 10) && p.isPrefixOf (l.drop i) &&
          gapMatch ps ((l.drop i).drop p.length)

/-- Unanchored regex search for pieces separated by `.*` (Python `re.search`
with a pattern of literals joined by `.*`). -/
def reSearch (ps : List (List Nat)) (l : List Nat) : Bool :=
  match ps with
  | [] => true
  | p :: rest =>
      (List.range (l.length + 1)).any fun i =>
        p.isPrefixOf (l.drop i) && gapMatch rest ((l.drop i).drop p.length)

/-- The four acceptance patterns, as literal pieces separated by `.*`,
parameterised by the lowercased insurance name. -/
def acceptancePieces (nameLower : List Nat) : List (List (List Nat)) :=
  [ [codes "dr", codes "accepts", nameLower]
  , [codes "accepts", nameLower]
  , [nameLower, codes "accepted"]
  , [nameLower, codes "participating"] ]

/-- The rejection patterns of `_check_insurance_in_new_tab`. -/
def rejectionPieces : List (List (List Nat)) :=
  [ [codes "we cannot verify"]
  , [codes "cannot verify"]
  , [codes "not verified"]
  , [codes "contact", codes "provider", codes "to confirm"] ]

/-- Classification tail of `_check_insurance_in_new_tab`: verify-text elements
first, then acceptance regexes, then rejection regexes, else `False`. -/
def checkInsuranceClassify (verifyTexts : List (List Nat)) (pageContent : List Nat)
    (insuranceName : List Nat) : Bool :=
  let nameLower := lowerL insuranceName
  if verifyTexts.any (fun t =>
      containsSeq (codes "accepts") (lowerL t) && containsSeq nameLower (lowerL t)) then
    true
  else
    let content := lowerL pageContent
    if (acceptancePieces nameLower).any (fun ps => reSearch ps content) then
      true
    else if rejectionPieces.any (fun ps => reSearch ps content) then
      false
    else
      false

/-!
## Notions used to reason about the normalization pipeline (claim C3)
-/

/-- The maximal word-character runs of a string, in order.  The degree-token
pattern `\b(md|do|phd|dds)\b` matches exactly when some maximal run equals a
token, since the tokens consist of word characters and both boundaries demand
a non-word neighbour (or a string end). -/
def wordRuns : List Nat → List (List Nat)
  | [] => []
  | c :: rest =>
      if isWordCode c then
        (c :: rest.takeWhile isWordCode) :: wordRuns (rest.dropWhile isWordCode)
      else wordRuns rest
termination_by l => l.length
decreasing_by
  · exact Nat.lt_succ_of_le (List.dropWhile_sublist _).length_le
  · simp

/-- The four degree tokens `md`, `do`, `phd`, `dds` as code lists. -/
def degToks : List (List Nat) :=
  [[109, 100], [100, 111], [112, 104, 100], [100, 100, 115]]

/-- No maximal word run of the string is a degree token, i.e.
`re.sub(r"\b(md|do|phd|dds)\b", "")` has nothing to remove. -/
def tokenFree (l : List Nat) : Prop :=
  ∀ r ∈ wordRuns l, r ∉ degToks

/-- The string is in collapsed-whitespace form: every whitespace character is
a plain space, and no two spaces are adjacent. -/
def collapsedB : List Nat → Bool
  | [] => true
  | [c] => !isSpaceCode c || c == 32
  | a :: b :: rest =>
      (!isSpaceCode a || a == 32) && !(a == 32 && b == 32) && collapsedB (b :: rest)

/-- Precondition under which `subDeg p` is the identity: with no pending word
character (`p = false`) the whole string must be token-free; with a pending
word character the head run cannot be matched anyway, so only the rest must
be token-free. -/
def degPre (p : Bool) (l : List Nat) : Prop :=
  if p then tokenFree (l.dropWhile isWordCode) else tokenFree l

/-!
## General helper lemmas
-/

/-- Characterization of `List.find?` returning `some`: the found element
satisfies the predicate and is the first such element. -/
theorem find?_eq_some_first {α : Type} (p : α → Bool) :
    ∀ (l : List α) (a : α), l.find? p = some a →
      p a = true ∧ ∃ pre post, l = pre ++ a :: post ∧ ∀ e ∈ pre, p e = false
  | [], a, h => by simp [List.find?] at h
  | x :: rest, a, h => by
    by_cases hx : p x = true
    · rw [List.find?_cons_of_pos _ hx] at h
      obtain rfl : x = a := by injection h
      exact ⟨hx, [], rest, rfl, by simp⟩
    · have hx' : p x = false := by simpa using hx
      rw [List.find?_cons_of_neg _ (by simp [hx'])] at h
      obtain ⟨hpa, pre, post, hl, hpre⟩ := find?_eq_some_first p rest a h
      refine ⟨hpa, x :: pre, post, by simp [hl], ?_⟩
      intro e he
      rcases List.mem_cons.mp he with rfl | he'
      · exact hx'
      · exact hpre e he'

/-- C1: the claim states that the lowercased page text
`"we cannot verify this provider accepts aetna"` with target value `"Aetna"`
must be classified as not accepted (the check returns `False`).  The code
instead returns `True`: the acceptance pattern `accepts.*aetna` literally
matches inside the rejection sentence, and acceptance patterns are evaluated
before the rejection patterns — even though the code's own rejection list
contains `"we cannot verify"`, which also matches this text.  This theorem
evaluates the embedded classifier at the claim's input and shows the `True`
result, witnessing the divergence. -/
theorem C1_cannot_verify_page_classified_accepted :
    checkInsuranceClassify [] (codes "we cannot verify this provider accepts aetna")
        (codes "Aetna") = true ∧
      rejectionPieces.any
        (fun ps => reSearch ps (lowerL (codes "we cannot verify this provider accepts aetna")))
        = true := by
  constructor
  · decide
  · decide

/-- C2: acceptance is evaluated strictly before rejection.  For every list of
verify-text elements, page text and target value, if any acceptance condition
holds — a verify-text element containing `"accepts"` and the lowercased value
name, or any acceptance regex matching the lowercased page text — then the
classifier returns `True`, regardless of whether a rejection pattern also
matches the same text. -/
theorem C2_acceptance_checked_before_rejection
    (verifyTexts : List (List Nat)) (pageContent : List Nat) (insuranceName : List Nat)
    (hacc : verifyTexts.any (fun t =>
        containsSeq (codes "accepts") (lowerL t) &&
          containsSeq (lowerL insuranceName) (lowerL t)) = true ∨
      (acceptancePieces (lowerL insuranceName)).any
        (fun ps => reSearch ps (lowerL pageContent)) = true) :
    checkInsuranceClassify verifyTexts pageContent insuranceName = true := by
  unfold checkInsuranceClassify
  rcases hacc with h | h
  · simp [h]
  · simp [h]

/-- Witness for C2 at a concrete input on which an acceptance pattern and a
rejection pattern both match: the classifier returns `True`. -/
theorem C2_witness :
    ((acceptancePieces (lowerL (codes "Aetna"))).any
        (fun ps => reSearch ps
          (lowerL (codes "dr. jane doe accepts aetna. we cannot verify this"))) = true ∧
      rejectionPieces.any
        (fun ps => reSearch ps
          (lowerL (codes "dr. jane doe accepts aetna. we cannot verify this"))) = true) ∧
    checkInsuranceClassify [] (codes "dr. jane doe accepts aetna. we cannot verify this")
      (codes "Aetna") = true :=
  ⟨⟨by decide, by decide⟩,
    C2_acceptance_checked_before_rejection _ _ _ (Or.inr (by decide))⟩

/-!
## Lemmas about `specDedup` and `pyFromkeys` (claim C4)
-/

/-- `specDedup` keeps exactly the elements of its input. -/
theorem specDedup_mem (l : List String) : ∀ a, a ∈ specDedup l ↔ a ∈ l := by
  induction l using specDedup.induct with
  | case1 =>
    intro a
    simp [specDedup]
  | case2 x rest ih =>
    intro a
    rw [specDedup]
    simp only [List.mem_cons, ih a, List.mem_filter]
    by_cases hax : a = x
    · simp [hax]
    · simp [hax]

/-- `specDedup` output has no duplicates. -/
theorem specDedup_nodup (l : List String) : (specDedup l).Nodup := by
  induction l using specDedup.induct with
  | case1 => simp [specDedup]
  | case2 x rest ih =>
    rw [specDedup]
    refine List.nodup_cons.mpr ⟨?_, ih⟩
    intro hmem
    have hx := (specDedup_mem _ x).mp hmem
    simp [List.mem_filter] at hx

/-- Characterization of Python's `dict.fromkeys` accumulation: folding
`keyInsert` appends, in first-occurrence order, the not-yet-seen elements. -/
theorem foldl_keyInsert :
    ∀ (l acc : List String),
      l.foldl keyInsert acc = acc ++ specDedup (l.filter fun y => y ∉ acc)
  | [], acc => by simp [specDedup]
  | x :: rest, acc => by
    by_cases hx : x ∈ acc
    · have h1 : keyInsert acc x = acc := if_pos hx
      have h2 : (x :: rest).filter (fun y => y ∉ acc) = rest.filter fun y => y ∉ acc := by
        simp [List.filter_cons, hx]
      rw [List.foldl_cons, h1, foldl_keyInsert rest acc, h2]
    · have h1 : keyInsert acc x = acc ++ [x] := if_neg hx
      have h2 : (x :: rest).filter (fun y => y ∉ acc) = x :: rest.filter fun y => y ∉ acc := by
        simp [List.filter_cons, hx]
      rw [List.foldl_cons, h1, foldl_keyInsert rest (acc ++ [x]), h2, specDedup]
      rw [List.append_assoc, List.singleton_append]
      have h3 : (rest.filter fun y => y ∉ acc).filter (fun y => y ≠ x) =
          rest.filter fun y => y ∉ acc ++ [x] := by
        rw [List.filter_filter]
        refine List.filter_congr ?_
        intro y _
        by_cases hyx : y = x
        · simp [hyx]
        · by_cases hya : y ∈ acc <;> simp [hyx, hya]
      rw [h3]

/-- C4: merging verification outcomes into the accepted-insurance list —
verified values are appended after the passively extracted values and the
combined list is deduplicated preserving first-seen order: the result equals
the canonical first-occurrence deduplication of the concatenation, contains
each distinct string exactly once, and contains a string iff the concatenation
does. -/
theorem C4_merge_dedup_first_seen_order (passive verified : List String) :
    mergeAcceptedInsurance passive verified = specDedup (passive ++ verified) ∧
    (mergeAcceptedInsurance passive verified).Nodup ∧
    ∀ a, a ∈ mergeAcceptedInsurance passive verified ↔ a ∈ passive ++ verified := by
  have key : mergeAcceptedInsurance passive verified = specDedup (passive ++ verified) := by
    unfold mergeAcceptedInsurance pyFromkeys
    rw [foldl_keyInsert (passive ++ verified) []]
    simp
  refine ⟨key, ?_, ?_⟩
  · rw [key]
    exact specDedup_nodup _
  · intro a
    rw [key]
    exact specDedup_mem _ a

/-!
## Lemmas about the url dict (claims C5, C7)
-/

/-- Keys after one dict insertion. -/
theorem dictInsert_keys (m : List (String × Doctor)) (k : String) (v : Doctor) :
    (dictInsert m k v).map Prod.fst =
      if k ∈ m.map Prod.fst then m.map Prod.fst else m.map Prod.fst ++ [k] := by
  unfold dictInsert
  by_cases h : m.any (fun p => p.1 = k) = true
  · have hk : k ∈ m.map Prod.fst := by
      obtain ⟨p, hp, hpk⟩ := List.any_eq_true.mp h
      exact List.mem_map.mpr ⟨p, hp, by simpa using hpk⟩
    rw [if_pos h, if_pos hk, List.map_map]
    refine List.map_congr_left ?_
    intro p hp
    by_cases hpk : p.1 = k
    · simp [hpk]
    · simp [hpk]
  · have hk : k ∉ m.map Prod.fst := by
      intro hmem
      obtain ⟨p, hp, hpk⟩ := List.mem_map.mp hmem
      exact h (List.any_eq_true.mpr ⟨p, hp, by simp [hpk]⟩)
    rw [if_neg h, if_neg hk, List.map_append]
    rfl

/-- Dict insertion preserves the invariant that each entry's value has the
entry's key as its url. -/
theorem dictInsert_wf {m : List (String × Doctor)} {k : String} {v : Doctor}
    (hm : ∀ p ∈ m, p.2.url = p.1) (hv : v.url = k) :
    ∀ p ∈ dictInsert m k v, p.2.url = p.1 := by
  unfold dictInsert
  intro p hp
  by_cases h : m.any (fun q => q.1 = k) = true
  · rw [if_pos h] at hp
    obtain ⟨q, hq, hpq⟩ := List.mem_map.mp hp
    by_cases hqk : q.1 = k
    · rw [if_pos hqk] at hpq
      rw [← hpq]
      exact hv
    · rw [if_neg hqk] at hpq
      rw [← hpq]
      exact hm q hq
  · rw [if_neg h] at hp
    rcases List.mem_append.mp hp with hpm | hpd
    · exact hm p hpm
    · have : p = (k, v) := by simpa using hpd
      rw [this]
      exact hv

/-- The url dict's entries satisfy the key-is-url invariant. -/
theorem buildUrlDict_wf (ds : List Doctor) : ∀ p ∈ buildUrlDict ds, p.2.url = p.1 := by
  induction ds using List.reverseRecOn with
  | nil => simp [buildUrlDict]
  | append_singleton ds d ih =>
    have hstep : buildUrlDict (ds ++ [d]) = dictInsert (buildUrlDict ds) d.url d :=
      List.foldl_concat _ _ d ds
    rw [hstep]
    exact dictInsert_wf ih rfl

/-- The url dict's keys are pairwise distinct. -/
theorem buildUrlDict_keys_nodup (ds : List Doctor) :
    ((buildUrlDict ds).map Prod.fst).Nodup := by
  induction ds using List.reverseRecOn with
  | nil => simp [buildUrlDict]
  | append_singleton ds d ih =>
    have hstep : buildUrlDict (ds ++ [d]) = dictInsert (buildUrlDict ds) d.url d :=
      List.foldl_concat _ _ d ds
    rw [hstep, dictInsert_keys]
    by_cases hk : d.url ∈ (buildUrlDict ds).map Prod.fst
    · rw [if_pos hk]
      exact ih
    · rw [if_neg hk]
      simp [List.nodup_append, ih, hk]

/-- A url is a key of the url dict iff it is the url of some input entry. -/
theorem buildUrlDict_keys_mem (ds : List Doctor) :
    ∀ u, u ∈ (buildUrlDict ds).map Prod.fst ↔ u ∈ ds.map (fun d => d.url) := by
  induction ds using List.reverseRecOn with
  | nil => simp [buildUrlDict]
  | append_singleton ds d ih =>
    intro u
    have hstep : buildUrlDict (ds ++ [d]) = dictInsert (buildUrlDict ds) d.url d :=
      List.foldl_concat _ _ d ds
    rw [hstep, dictInsert_keys]
    by_cases hk : d.url ∈ (buildUrlDict ds).map Prod.fst
    · rw [if_pos hk]
      simp only [List.map_append, List.mem_append, ih u]
      constructor
      · intro h
        exact Or.inl h
      · intro h
        rcases h with h | h
        · exact h
        · have : u = d.url := by simpa using h
          rw [this]
          exact (ih d.url).mp hk
    · rw [if_neg hk]
      simp [ih u]

/-- Each dict entry's value is the last input entry carrying that key. -/
theorem buildUrlDict_last (ds : List Doctor) :
    ∀ p ∈ buildUrlDict ds, (ds.filter fun e => e.url = p.1).getLast? = some p.2 := by
  induction ds using List.reverseRecOn with
  | nil => simp [buildUrlDict]
  | append_singleton ds d ih =>
    intro p hp
    have hstep : buildUrlDict (ds ++ [d]) = dictInsert (buildUrlDict ds) d.url d :=
      List.foldl_concat _ _ d ds
    rw [hstep] at hp
    rw [List.filter_append]
    unfold dictInsert at hp
    by_cases h : (buildUrlDict ds).any (fun q => q.1 = d.url) = true
    · rw [if_pos h] at hp
      obtain ⟨q, hq, hpq⟩ := List.mem_map.mp hp
      by_cases hqk : q.1 = d.url
      · rw [if_pos hqk] at hpq
        rw [← hpq]
        have hfd : [d].filter (fun e => e.url = (d.url, d).1) = [d] := by
          simp
        rw [hfd, List.getLast?_append]
        rfl
      · rw [if_neg hqk] at hpq
        rw [← hpq]
        have hfd : [d].filter (fun e => e.url = q.1) = [] := by
          simp only [List.filter_cons, List.filter_nil]
          rw [if_neg]
          simp only [decide_eq_true_eq]
          intro hed
          exact hqk hed.symm
        rw [hfd, List.append_nil]
        exact ih q hq
    · rw [if_neg h] at hp
      rcases List.mem_append.mp hp with hpm | hpd
      · have hpk : p.1 ≠ d.url := by
          intro hpk
          refine h (List.any_eq_true.mpr ⟨p, hpm, by simp [hpk]⟩)
        have hfd : [d].filter (fun e => e.url = p.1) = [] := by
          simp only [List.filter_cons, List.filter_nil]
          rw [if_neg]
          simp only [decide_eq_true_eq]
          intro hed
          exact hpk hed.symm
        rw [hfd, List.append_nil]
        exact ih p hpm
      · have hpd' : p = (d.url, d) := by simpa using hpd
        rw [hpd']
        have hfd : [d].filter (fun e => e.url = (d.url, d).1) = [d] := by
          simp
        rw [hfd, List.getLast?_append]
        rfl

/-- C5: the directory-crawl merge deduplicates by url as a true set
operation.  For every collection of per-page entry lists: no two entries of
the deduplicated merge share a url; a url appears in the merge iff some
page's raw output contains an entry with that url, and then exactly once; and
the entry kept for a url is the last entry with that url in page order. -/
theorem C5_dedup_by_url_true_set_operation (pages : List (List Doctor)) :
    ((dedupByUrl pages.flatten).map (fun d => d.url)).Nodup ∧
    (∀ u, u ∈ (dedupByUrl pages.flatten).map (fun d => d.url) ↔
      ∃ page ∈ pages, ∃ d ∈ page, d.url = u) ∧
    (∀ u, (∃ page ∈ pages, ∃ d ∈ page, d.url = u) →
      ((dedupByUrl pages.flatten).map (fun d => d.url)).count u = 1) ∧
    (∀ d ∈ dedupByUrl pages.flatten,
      ((pages.flatten).filter fun e => e.url = d.url).getLast? = some d) := by
  have hmapeq : (dedupByUrl pages.flatten).map (fun d => d.url) =
      (buildUrlDict pages.flatten).map Prod.fst := by
    unfold dedupByUrl
    rw [List.map_map]
    exact List.map_congr_left fun p hp => buildUrlDict_wf _ p hp
  have hnodup : ((dedupByUrl pages.flatten).map (fun d => d.url)).Nodup := by
    rw [hmapeq]
    exact buildUrlDict_keys_nodup _
  have hmemurl : ∀ u, u ∈ (dedupByUrl pages.flatten).map (fun d => d.url) ↔
      ∃ page ∈ pages, ∃ d ∈ page, d.url = u := by
    intro u
    rw [hmapeq, buildUrlDict_keys_mem]
    constructor
    · intro h
      obtain ⟨d, hd, hdu⟩ := List.mem_map.mp h
      obtain ⟨page, hpg, hdp⟩ := List.mem_flatten.mp hd
      exact ⟨page, hpg, d, hdp, hdu⟩
    · intro h
      obtain ⟨page, hpg, d, hd, hdu⟩ := h
      exact List.mem_map.mpr ⟨d, List.mem_flatten.mpr ⟨page, hpg, hd⟩, hdu⟩
  refine ⟨hnodup, hmemurl, ?_, ?_⟩
  · intro u hu
    have hmem : u ∈ (dedupByUrl pages.flatten).map (fun d => d.url) := (hmemurl u).mpr hu
    have hle := List.nodup_iff_count_le_one.mp hnodup u
    have hpos : 0 < ((dedupByUrl pages.flatten).map (fun d => d.url)).count u :=
      List.count_pos_iff.mpr hmem
    omega
  · intro d hd
    obtain ⟨p, hp, hpd⟩ := List.mem_map.mp hd
    have hkey := buildUrlDict_wf pages.flatten p hp
    have hlast := buildUrlDict_last pages.flatten p hp
    rw [← hpd, hkey]
    exact hlast

/-- Witness for C5: two pages carrying the same profile url yield one merged
entry — the later page's entry — while a distinct url from a failing-free page
is kept as well. -/
theorem C5_witness :
    dedupByUrl ([[⟨"Sarah K. Johnson", "/a"⟩, ⟨"Bob Roe", "/b"⟩],
        [⟨"Sarah K Johnson", "/a"⟩]]).flatten
      = [⟨"Sarah K Johnson", "/a"⟩, ⟨"Bob Roe", "/b"⟩] ∧
    (([[⟨"Sarah K. Johnson", "/a"⟩, ⟨"Bob Roe", "/b"⟩],
        [⟨"Sarah K Johnson", "/a"⟩]] : List (List Doctor)).flatten.filter
      fun e => e.url = "/a").getLast? = some ⟨"Sarah K Johnson", "/a"⟩ := by
  constructor
  · decide
  · exact (C5_dedup_by_url_true_set_operation
      [[⟨"Sarah K. Johnson", "/a"⟩, ⟨"Bob Roe", "/b"⟩],
        [⟨"Sarah K Johnson", "/a"⟩]]).2.2.2 ⟨"Sarah K Johnson", "/a"⟩ (by decide)

/-- The collection loop appends, after any accumulator, exactly the entries of
the page results in order (exceptions and empty lists contribute nothing). -/
theorem collectAll_go :
    ∀ (rs : List PageResult) (acc : List Doctor),
      List.foldl collectStep acc rs = acc ++ (rs.map pageEntries).flatten
  | [], acc => by simp
  | PageResult.ok ds :: rest, acc => by
    rw [List.foldl_cons, collectAll_go rest (collectStep acc (PageResult.ok ds))]
    by_cases hds : ds.isEmpty = true
    · have hnil : ds = [] := by simpa using hds
      subst hnil
      simp [collectStep, pageEntries]
    · have hstep : collectStep acc (PageResult.ok ds) = acc ++ ds := by
        unfold collectStep
        exact if_neg hds
      rw [hstep]
      simp [pageEntries]
  | PageResult.exc :: rest, acc => by
    rw [List.foldl_cons, collectAll_go rest (collectStep acc PageResult.exc)]
    simp [collectStep, pageEntries]

/-- The success counter adds, to any start value, the number of non-exception
non-empty results. -/
theorem successfulPages_go :
    ∀ (rs : List PageResult) (n : Nat),
      List.foldl countStep n rs
        = n + (rs.filter fun r => isOkResult r && !(pageEntries r).isEmpty).length
  | [], n => by simp
  | PageResult.ok ds :: rest, n => by
    rw [List.foldl_cons, successfulPages_go rest (countStep n (PageResult.ok ds))]
    by_cases hds : ds.isEmpty = true
    · have hstep : countStep n (PageResult.ok ds) = n := by
        unfold countStep
        exact if_pos hds
      rw [hstep, List.filter_cons]
      simp [isOkResult, pageEntries, hds]
    · have hstep : countStep n (PageResult.ok ds) = n + 1 := by
        unfold countStep
        exact if_neg hds
      rw [hstep, List.filter_cons]
      have hcond : (isOkResult (PageResult.ok ds) && !(pageEntries (PageResult.ok ds)).isEmpty)
          = true := by
        simp [isOkResult, pageEntries, hds]
      rw [hcond]
      simp only [if_pos, List.length_cons]
      omega
  | PageResult.exc :: rest, n => by
    rw [List.foldl_cons, successfulPages_go rest (countStep n PageResult.exc)]
    rw [List.filter_cons]
    simp [countStep, isOkResult]

/-- Dropping the exception results does not change the concatenated entries. -/
theorem flatten_entries_filter_ok :
    ∀ rs : List PageResult,
      ((rs.filter isOkResult).map pageEntries).flatten = (rs.map pageEntries).flatten
  | [] => by simp
  | PageResult.ok ds :: rest => by
    simp only [List.filter_cons, isOkResult, if_pos, List.map_cons, List.flatten_cons]
    rw [flatten_entries_filter_ok rest]
  | PageResult.exc :: rest => by
    simp only [List.filter_cons, isOkResult, List.map_cons, List.flatten_cons]
    simp only [Bool.false_eq_true, if_neg, pageEntries, List.nil_append]
    exact flatten_entries_filter_ok rest

/-- C7: partial failure isolation in the concurrent crawl merge.  For every
list of per-page results in which some results are exceptions: the collected
entries are exactly the concatenation of the page results' entries; the
merged deduplicated output is unchanged when the exception results are
dropped (the other pages' entries are unaffected); and the successful-page
count equals the number of non-exception, non-empty results. -/
theorem C7_partial_failure_isolation (rs : List PageResult) :
    collectAll rs = (rs.map pageEntries).flatten ∧
    scrapeDoctorsMerge rs = scrapeDoctorsMerge (rs.filter isOkResult) ∧
    successfulPages rs
      = (rs.filter fun r => isOkResult r && !(pageEntries r).isEmpty).length := by
  refine ⟨?_, ?_, ?_⟩
  · unfold collectAll
    rw [collectAll_go rs []]
    simp
  · unfold scrapeDoctorsMerge collectAll
    rw [collectAll_go rs [], collectAll_go (rs.filter isOkResult) [],
      flatten_entries_filter_ok rs]
  · unfold successfulPages
    rw [successfulPages_go rs 0]
    simp

/-- C6: entity matching.  A candidate matches the target iff every
whitespace-separated token of the normalized target name appears as a
substring of the normalized candidate name (the first conjunct spells out the
predicate); the matcher returns the first candidate in crawl order satisfying
the predicate, and returns `none` when no candidate satisfies it. -/
theorem C6_matcher_returns_first_token_subset_match (doctors : List Doctor) (target : String) :
    (∀ d : Doctor, matchesTarget target d =
      (pySplit (normalizeName (codes target))).all
        (fun part => containsSeq part (normalizeName (codes d.name)))) ∧
    (findDoctor doctors target = none ↔ ∀ d ∈ doctors, matchesTarget target d = false) ∧
    (∀ d, findDoctor doctors target = some d →
      matchesTarget target d = true ∧
      ∃ pre post, doctors = pre ++ d :: post ∧ ∀ e ∈ pre, matchesTarget target e = false) := by
  refine ⟨fun d => rfl, ?_, ?_⟩
  · rw [findDoctor, List.find?_eq_none]
    constructor
    · intro h d hd
      simpa using h d hd
    · intro h d hd
      simp [h d hd]
  · intro d h
    exact find?_eq_some_first _ doctors d h

/-- Witness for C6: with candidates `Sara Williams` then `Sarah K. Johnson`
and target `Dr. Sara Johnson`, the matcher skips the non-matching first
candidate and returns the second (alias `sarah → sara` applies, `johnson`
matches inside `johnson`). -/
theorem C6_witness :
    findDoctor [⟨"Sara Williams", "u1"⟩, ⟨"Sarah K. Johnson", "u2"⟩] "Dr. Sara Johnson"
        = some ⟨"Sarah K. Johnson", "u2"⟩ ∧
    matchesTarget "Dr. Sara Johnson" ⟨"Sarah K. Johnson", "u2"⟩ = true ∧
    matchesTarget "Dr. Sara Johnson" ⟨"Sara Williams", "u1"⟩ = false :=
  ⟨by decide,
    ((C6_matcher_returns_first_token_subset_match
        [⟨"Sara Williams", "u1"⟩, ⟨"Sarah K. Johnson", "u2"⟩] "Dr. Sara Johnson").2.2
      _ (by decide)).1,
    by decide⟩

/-- C9: when the target name normalizes to the empty string (so `str.split()`
yields no tokens), the token-subset predicate is vacuously true and the
matcher returns the first candidate of any non-empty candidate list instead
of reporting not-found. -/
theorem C9_empty_normalized_target_matches_first (doctors : List Doctor) (target : String)
    (hempty : pySplit (normalizeName (codes target)) = [])
    (hne : doctors ≠ []) :
    findDoctor doctors target = doctors.head? := by
  cases doctors with
  | nil => exact absurd rfl hne
  | cons d rest =>
    have hm : matchesTarget target d = true := by
      unfold matchesTarget
      rw [hempty]
      rfl
    simp [findDoctor, List.find?_cons_of_pos _ hm]

/-- Witness for C9: the target `"Dr. MD"` normalizes to the empty string, and
the matcher returns the first (arbitrary, non-matching-by-name) candidate. -/
theorem C9_witness :
    pySplit (normalizeName (codes "Dr. MD")) = [] ∧
    findDoctor [⟨"Totally Unrelated", "u9"⟩] "Dr. MD" = some ⟨"Totally Unrelated", "u9"⟩ := by
  refine ⟨by decide, ?_⟩
  rw [C9_empty_normalized_target_matches_first [⟨"Totally Unrelated", "u9"⟩] "Dr. MD"
    (by decide) (by decide)]
  rfl

/-- Counterexample for C3: normalization is not idempotent.  On input
`"sarahh"` the alias substitution `sarah → sara` recreates the substring
`"sarah"` (`"sarahh"` normalizes to `"sarah"`), so a second normalization
pass changes the string again (to `"sara"`). -/
theorem C3_counterexample_sarahh :
    normalizeName (normalizeName (codes "sarahh")) ≠ normalizeName (codes "sarahh") := by
  decide

/-- C8: NPI address selection.  The selected address is the first address
whose purpose is `"LOCATION"`; if none exists, the first whose purpose is
`"MAILING"`; otherwise the first address of the list; `none` when the list is
empty; and in the formatted string a postal code longer than 5 characters is
truncated to its first 5 characters. -/
theorem C8_npi_address_selection (addresses : List NpiAddress) :
    (extractBestAddressFromNpi [] = none) ∧
    (∀ a, addresses.find? isLocation = some a →
      extractBestAddressFromNpi addresses = some (formatNpiAddress a) ∧
      ∃ pre post, addresses = pre ++ a :: post ∧ ∀ e ∈ pre, isLocation e = false) ∧
    (addresses.find? isLocation = none →
      ∀ a, addresses.find? isMailing = some a →
        extractBestAddressFromNpi addresses = some (formatNpiAddress a) ∧
        ∃ pre post, addresses = pre ++ a :: post ∧ ∀ e ∈ pre, isMailing e = false) ∧
    (addresses.find? isLocation = none → addresses.find? isMailing = none →
      ∀ a0 rest, addresses = a0 :: rest →
        extractBestAddressFromNpi addresses = some (formatNpiAddress a0)) ∧
    (∀ a p, a.postal_code = some p → 5 < p.toList.length →
      formatNpiAddress a
        = formatNpiAddress { a with postal_code := some (String.mk (p.toList.take 5)) }) := by
  refine ⟨rfl, ?_, ?_, ?_, ?_⟩
  · intro a h
    refine ⟨?_, (find?_eq_some_first _ _ _ h).2⟩
    cases addresses with
    | nil => exact absurd h (by simp)
    | cons a0 rest =>
      unfold extractBestAddressFromNpi
      rw [h]
  · intro hloc a h
    refine ⟨?_, (find?_eq_some_first _ _ _ h).2⟩
    cases addresses with
    | nil => exact absurd h (by simp)
    | cons a0 rest =>
      unfold extractBestAddressFromNpi
      rw [hloc, h]
  · intro hloc hmail a0 rest heq
    subst heq
    unfold extractBestAddressFromNpi
    rw [hloc, hmail]
  · intro a p hp hlen
    have hpne : (p == "") = false := by
      rw [beq_eq_false_iff_ne]
      intro hpe
      subst hpe
      simp at hlen
    have htr : truthy (some p) = true := by
      simp [truthy, hpne]
    have hlist : (String.mk (p.toList.take 5)).toList = p.toList.take 5 := rfl
    have hlen5 : (String.mk (p.toList.take 5)).toList.length = 5 := by
      rw [hlist, List.length_take]
      omega
    have htr' : truthy (some (String.mk (p.toList.take 5))) = true := by
      unfold truthy
      rw [Bool.not_eq_true']
      rw [beq_eq_false_iff_ne]
      intro he
      have : (String.mk (p.toList.take 5)).toList.length = (0 : Nat) := by
        rw [he]
        rfl
      omega
    unfold formatNpiAddress
    simp only [hp, htr, htr', Option.getD_some]
    have hsame : truncPostal p = truncPostal (String.mk (p.toList.take 5)) := by
      unfold truncPostal
      rw [if_pos hlen, hlen5]
      rw [if_neg (by omega)]
    rw [hsame]

/-- Witness for C8 at concrete inputs: a MAILING address listed first is
skipped in favour of the first LOCATION address, and a 9-digit postal code is
formatted truncated to 5 characters. -/
theorem C8_witness :
    extractBestAddressFromNpi
        [⟨some "MAILING", some "PO Box 1", none, some "Boise", some "ID", some "83702"⟩,
         ⟨some "LOCATION", some "123 Main St", none, some "Boise", some "ID", some "837021234"⟩]
      = some "123 Main St, Boise, ID, 83702" ∧
    formatNpiAddress
        ⟨some "LOCATION", some "123 Main St", none, some "Boise", some "ID", some "837021234"⟩
      = formatNpiAddress
        ⟨some "LOCATION", some "123 Main St", none, some "Boise", some "ID", some "83702"⟩ := by
  constructor
  · have h := ((C8_npi_address_selection
      [⟨some "MAILING", some "PO Box 1", none, some "Boise", some "ID", some "83702"⟩,
       ⟨some "LOCATION", some "123 Main St", none, some "Boise", some "ID", some "837021234"⟩]).2.1
      ⟨some "LOCATION", some "123 Main St", none, some "Boise", some "ID", some "837021234"⟩
      (by decide)).1
    rw [h]
    decide
  · have h := (C8_npi_address_selection []).2.2.2.2
      ⟨some "LOCATION", some "123 Main St", none, some "Boise", some "ID", some "837021234"⟩
      "837021234" rfl (by decide)
    rw [h]
    decide

/-- Counterexample for C10: the claim says only two-uppercase-letter tokens of
the address are tried as abbreviations, so for the all-lowercase address
`"boise, id"` (which contains no such token and no full state name) it
predicts `none`; the code uppercases the address first and returns
`some "idaho"`. -/
theorem C10_counterexample_lowercase_abbrev :
    extractStateFromAddress "boise, id" = some "idaho" ∧
    findUU false (codes "boise, id") = [] ∧
    extractStateClaimed "boise, id" = none := by
  refine ⟨by decide, by decide, by decide⟩

/-- C10 (amended): for every address, only the LAST two-uppercase-letter token
of the UPPERCASED address is tried as a state abbreviation; if it maps to a
known state that (hyphenated URL-format) full name is returned; otherwise —
including when an earlier token was a valid abbreviation, or the last lookup
fails — the function falls back to the first full state name occurring as a
substring of the lowercased address, and the empty address yields `none`. -/
theorem C10_state_from_last_uppercased_token (address : String) :
    (extractStateFromAddress "" = none) ∧
    (∀ ab s, (findUU false (upperL (codes address))).getLast? = some ab →
      lookupAbbrev ab = some s →
      extractStateFromAddress address = some s) ∧
    ((∀ ab, (findUU false (upperL (codes address))).getLast? = some ab →
        lookupAbbrev ab = none) →
      address ≠ "" →
      extractStateFromAddress address =
        (stateNames.find? fun p => containsSeq (codes p.1) (lowerL (codes address))).map
          fun p => p.2) := by
  refine ⟨rfl, ?_, ?_⟩
  · intro ab s hab hs
    have hne : address ≠ "" := by
      intro h
      subst h
      have hempty : (findUU false (upperL (codes ""))).getLast? = (none : Option (List Nat)) :=
        rfl
      rw [hempty] at hab
      exact Option.noConfusion hab
    unfold extractStateFromAddress
    rw [if_neg hne, hab]
    dsimp only
    rw [hs]
  · intro hfail hne
    unfold extractStateFromAddress
    rw [if_neg hne]
    cases hlast : (findUU false (upperL (codes address))).getLast? with
    | none => rfl
    | some ab =>
      dsimp only
      rw [hfail ab hlast]

/-- Witness for C10: a conventional address resolves through its trailing
abbreviation, and an address whose only valid abbreviation is not the last
two-letter token falls through to the (failing) full-name search. -/
theorem C10_witness :
    extractStateFromAddress "123 Main St, Boise, ID 83702" = some "idaho" ∧
    (findUU false (upperL (codes "CA street, XY"))).getLast? = some (codes "XY") ∧
    codes "CA" ∈ findUU false (upperL (codes "CA street, XY")) ∧
    lookupAbbrev (codes "CA") = some "california" ∧
    extractStateFromAddress "CA street, XY" = none := by
  refine ⟨?_, by decide, by decide, by decide, ?_⟩
  · exact (C10_state_from_last_uppercased_token "123 Main St, Boise, ID 83702").2.1
      (codes "ID") "idaho" (by decide) (by decide)
  · have h := (C10_state_from_last_uppercased_token "CA street, XY").2.2
      (fun ab hab => by
        have hx : (findUU false (upperL (codes "CA street, XY"))).getLast?
            = some (codes "XY") := by decide
        rw [hx] at hab
        have : codes "XY" = ab := Option.some.inj hab
        rw [← this]
        decide)
      (by decide)
    rw [h]
    decide

/-!
## Claim C3: idempotence of normalization away from `dr` and `sarah`

The remaining sections establish that each pipeline stage is the identity on
an already-normalized string, provided the normalized string contains neither
`"dr"` nor `"sarah"` — the two substrings the counterexamples show can
survive (or be recreated by) the first pass.
-/

/-- Characterization of word characters. -/
theorem isWordCode_iff (n : Nat) : isWordCode n = true ↔
    (48 ≤ n ∧ n ≤ 57) ∨ (65 ≤ n ∧ n ≤ 90) ∨ (97 ≤ n ∧ n ≤ 122) ∨ n = 95 := by
  unfold isWordCode
  simp only [Bool.or_eq_true, Bool.and_eq_true, decide_eq_true_eq, beq_iff_eq]
  tauto

/-- Characterization of whitespace characters. -/
theorem isSpaceCode_iff (n : Nat) : isSpaceCode n = true ↔
    n = 32 ∨ n = 9 ∨ n = 10 ∨ n = 11 ∨ n = 12 ∨ n = 13 := by
  unfold isSpaceCode
  simp only [Bool.or_eq_true, beq_iff_eq]
  tauto

/-- Whitespace characters are not word characters. -/
theorem space_not_word {c : Nat} (h : isSpaceCode c = true) : isWordCode c = false := by
  rw [← Bool.not_eq_true, isWordCode_iff]
  rw [isSpaceCode_iff] at h
  omega

/-- Word characters are not whitespace. -/
theorem word_not_space {c : Nat} (h : isWordCode c = true) : isSpaceCode c = false := by
  rw [← Bool.not_eq_true, isSpaceCode_iff]
  rw [isWordCode_iff] at h
  omega

/-- ASCII lowercasing is idempotent. -/
theorem toLowerCode_idem (c : Nat) : toLowerCode (toLowerCode c) = toLowerCode c := by
  by_cases h : 65 ≤ c ∧ c ≤ 90
  · have h1 : toLowerCode c = c + 32 := if_pos h
    rw [h1]
    unfold toLowerCode
    rw [if_neg (by omega)]
  · have h1 : toLowerCode c = c := if_neg h
    rw [h1, h1]

/-- `subDr` only deletes characters. -/
theorem subDr_subset : ∀ (l : List Nat), ∀ c ∈ subDr l, c ∈ l
  | [] => by simp [subDr]
  | [a] => by simp [subDr]
  | [a, b] => by
    intro c hc
    simp only [subDr] at hc
    split at hc
    · simp at hc
    · rcases List.mem_cons.mp hc with rfl | h2
      · exact List.mem_cons_self _ _
      · exact List.mem_cons_of_mem _ (subDr_subset [b] c h2)
  | a :: b :: e :: rest => by
    intro c hc
    simp only [subDr] at hc
    split at hc
    · exact List.mem_cons_of_mem _ (List.mem_cons_of_mem _
        (List.mem_cons_of_mem _ (subDr_subset rest c hc)))
    · split at hc
      · exact List.mem_cons_of_mem _ (List.mem_cons_of_mem _ (subDr_subset (e :: rest) c hc))
      · rcases List.mem_cons.mp hc with rfl | h2
        · exact List.mem_cons_self _ _
        · exact List.mem_cons_of_mem _ (subDr_subset (b :: e :: rest) c h2)

/-- `subDeg` only deletes characters. -/
theorem subDeg_subset : ∀ (l : List Nat) (p : Bool), ∀ c ∈ subDeg p l, c ∈ l
  | [], p => by simp [subDeg]
  | [a], p => by simp [subDeg]
  | [a, b], p => by
    intro c hc
    simp only [subDeg] at hc
    split at hc
    · simp at hc
    · rcases List.mem_cons.mp hc with rfl | h2
      · exact List.mem_cons_self _ _
      · exact List.mem_cons_of_mem _ (subDeg_subset [b] (isWordCode a) c h2)
  | a :: b :: e :: rest, p => by
    intro c hc
    simp only [subDeg] at hc
    split at hc
    · exact List.mem_cons_of_mem _ (List.mem_cons_of_mem _ (subDeg_subset (e :: rest) true c hc))
    · split at hc
      · exact List.mem_cons_of_mem _ (List.mem_cons_of_mem _
          (List.mem_cons_of_mem _ (subDeg_subset rest true c hc)))
      · rcases List.mem_cons.mp hc with rfl | h2
        · exact List.mem_cons_self _ _
        · exact List.mem_cons_of_mem _ (subDeg_subset (b :: e :: rest) (isWordCode a) c h2)

/-- `replSarah` only emits characters of its input (the replacement `sara` is
a subsequence of the removed `sarah`). -/
theorem replSarah_subset : ∀ (l : List Nat), ∀ c ∈ replSarah l, c ∈ l
  | [] => by simp [replSarah]
  | [a] => by simp [replSarah]
  | [a, b] => by simp [replSarah]
  | [a, b, c0] => by simp [replSarah]
  | [a, b, c0, d] => by simp [replSarah]
  | a :: b :: c0 :: d :: e :: rest => by
    intro c hc
    simp only [replSarah] at hc
    split at hc
    · rename_i hs
      obtain ⟨ha, hb, hc0, hd, he⟩ := hs
      subst ha hb hc0 hd he
      rcases List.mem_cons.mp hc with rfl | h2
      · exact List.mem_cons_self _ _
      · rcases List.mem_cons.mp h2 with rfl | h3
        · exact List.mem_cons_of_mem _ (List.mem_cons_self _ _)
        · rcases List.mem_cons.mp h3 with rfl | h4
          · exact List.mem_cons_of_mem _ (List.mem_cons_of_mem _ (List.mem_cons_self _ _))
          · rcases List.mem_cons.mp h4 with rfl | h5
            · exact List.mem_cons_of_mem _ (List.mem_cons_self _ _)
            · exact List.mem_cons_of_mem _ (List.mem_cons_of_mem _ (List.mem_cons_of_mem _
                (List.mem_cons_of_mem _ (List.mem_cons_of_mem _
                  (replSarah_subset rest c h5)))))
    · rcases List.mem_cons.mp hc with rfl | h2
      · exact List.mem_cons_self _ _
      · exact List.mem_cons_of_mem _ (replSarah_subset (b :: c0 :: d :: e :: rest) c h2)

/-- `collapseAux` only emits characters of its input or plain spaces. -/
theorem collapseAux_mem : ∀ (l : List Nat) (b : Bool), ∀ c ∈ collapseAux b l, c ∈ l ∨ c = 32
  | [], b => by simp [collapseAux]
  | a :: rest, b => by
    intro c hc
    simp only [collapseAux] at hc
    split at hc
    · split at hc
      · rcases collapseAux_mem rest true c hc with h | h
        · exact Or.inl (List.mem_cons_of_mem _ h)
        · exact Or.inr h
      · rcases List.mem_cons.mp hc with rfl | h2
        · exact Or.inr rfl
        · rcases collapseAux_mem rest true c h2 with h | h
          · exact Or.inl (List.mem_cons_of_mem _ h)
          · exact Or.inr h
    · rcases List.mem_cons.mp hc with rfl | h2
      · exact Or.inl (List.mem_cons_self _ _)
      · rcases collapseAux_mem rest false c h2 with h | h
        · exact Or.inl (List.mem_cons_of_mem _ h)
        · exact Or.inr h

/-- `stripTrail` keeps a prefix of its input. -/
theorem stripTrail_prefix : ∀ l : List Nat, ∃ t, l = stripTrail l ++ t
  | [] => ⟨[], rfl⟩
  | c :: rest => by
    obtain ⟨t, ht⟩ := stripTrail_prefix rest
    by_cases h : stripTrail rest = [] ∧ isSpaceCode c = true
    · refine ⟨c :: rest, ?_⟩
      have hcut : stripTrail (c :: rest) = [] := by
        show (if stripTrail rest = [] ∧ isSpaceCode c = true then []
          else c :: stripTrail rest) = []
        rw [if_pos h]
      rw [hcut]
      rfl
    · refine ⟨t, ?_⟩
      have hkeep : stripTrail (c :: rest) = c :: stripTrail rest := by
        show (if stripTrail rest = [] ∧ isSpaceCode c = true then []
          else c :: stripTrail rest) = c :: stripTrail rest
        rw [if_neg h]
      rw [hkeep, List.cons_append, ← ht]

/-- Every character of a normalized string is fixed by lowercasing and is
neither a period nor a comma. -/
theorem normalizeName_chars (l : List Nat) :
    ∀ c ∈ normalizeName l, toLowerCode c = c ∧ c ≠ 46 ∧ c ≠ 44 := by
  intro c hc
  unfold normalizeName pyStrip at hc
  have hc1 : c ∈ stripTrail (replSarah (collapseWs (subDeg false (subPunct (subDr (lowerL l)))))) := by
    unfold stripLead at hc
    exact (List.dropWhile_sublist _).subset hc
  obtain ⟨t, ht⟩ := stripTrail_prefix (replSarah (collapseWs (subDeg false (subPunct (subDr (lowerL l))))))
  have hc2 : c ∈ replSarah (collapseWs (subDeg false (subPunct (subDr (lowerL l))))) := by
    rw [ht]
    exact List.mem_append.mpr (Or.inl hc1)
  have hc3 : c ∈ collapseWs (subDeg false (subPunct (subDr (lowerL l)))) :=
    replSarah_subset _ c hc2
  unfold collapseWs at hc3
  rcases collapseAux_mem _ false c hc3 with hc4 | hc32
  · have hc5 : c ∈ subPunct (subDr (lowerL l)) := subDeg_subset _ false c hc4
    unfold subPunct at hc5
    have hc5' := List.mem_filter.mp hc5
    have hpred : (!(c == 46 || c == 44)) = true := hc5'.2
    have hc6 : c ∈ subDr (lowerL l) := hc5'.1
    have hc7 : c ∈ lowerL l := subDr_subset _ c hc6
    obtain ⟨c0, _, hc0⟩ := List.mem_map.mp hc7
    constructor
    · rw [← hc0]
      exact toLowerCode_idem c0
    · simp only [Bool.not_eq_true', Bool.or_eq_false_iff, beq_eq_false_iff_ne, ne_eq] at hpred
      exact hpred
  · subst hc32
    exact ⟨rfl, by omega, by omega⟩

/-- Second-pass lowercasing is the identity on a normalized string. -/
theorem lowerL_normalizeName (l : List Nat) :
    lowerL (normalizeName l) = normalizeName l := by
  unfold lowerL
  rw [List.map_congr_left fun c hc => (normalizeName_chars l c hc).1]
  exact List.map_id _

/-- Second-pass punctuation removal is the identity on a normalized string. -/
theorem subPunct_normalizeName (l : List Nat) :
    subPunct (normalizeName l) = normalizeName l := by
  unfold subPunct
  refine List.filter_eq_self.mpr ?_
  intro c hc
  have h := normalizeName_chars l c hc
  simp [h.2.1, h.2.2]

/-- Splitting a failed substring search at a cons cell. -/
theorem containsSeq_cons_false {p : List Nat} {c : Nat} {rest : List Nat}
    (h : containsSeq p (c :: rest) = false) :
    p.isPrefixOf (c :: rest) = false ∧ containsSeq p rest = false := by
  have heq : containsSeq p (c :: rest) = (p.isPrefixOf (c :: rest) || containsSeq p rest) :=
    rfl
  rw [heq] at h
  simpa using h

/-- `subDr` is the identity on strings not containing `dr`. -/
theorem subDr_id : ∀ l : List Nat, containsSeq (codes "dr") l = false → subDr l = l
  | [] => fun _ => rfl
  | [a] => fun _ => rfl
  | [a, b] => by
    intro h
    obtain ⟨hpre, _⟩ := containsSeq_cons_false h
    have hne : ¬(a = 100 ∧ b = 114) := by
      intro ⟨ha, hb⟩
      subst ha hb
      exact absurd hpre (by decide)
    show (if a = 100 ∧ b = 114 then [] else a :: subDr [b]) = [a, b]
    rw [if_neg hne]
    rfl
  | a :: b :: e :: rest => by
    intro h
    obtain ⟨hpre, htail⟩ := containsSeq_cons_false h
    have hne : ¬(a = 100 ∧ b = 114) := by
      intro ⟨ha, hb⟩
      subst ha hb
      simp [List.isPrefixOf, codes] at hpre
    show (if a = 100 ∧ b = 114 ∧ e = 46 then subDr rest
      else if a = 100 ∧ b = 114 then subDr (e :: rest)
      else a :: subDr (b :: e :: rest)) = a :: b :: e :: rest
    rw [if_neg fun hcon => hne ⟨hcon.1, hcon.2.1⟩, if_neg hne]
    rw [subDr_id (b :: e :: rest) htail]

/-- `replSarah` is the identity on strings not containing `sarah`. -/
theorem replSarah_id : ∀ l : List Nat, containsSeq (codes "sarah") l = false → replSarah l = l
  | [] => fun _ => rfl
  | [a] => fun _ => rfl
  | [a, b] => fun _ => rfl
  | [a, b, c] => fun _ => rfl
  | [a, b, c, d] => fun _ => rfl
  | a :: b :: c :: d :: e :: rest => by
    intro h
    obtain ⟨hpre, htail⟩ := containsSeq_cons_false h
    have hne : ¬(a = 115 ∧ b = 97 ∧ c = 114 ∧ d = 97 ∧ e = 104) := by
      intro ⟨ha, hb, hc, hd, he⟩
      subst ha hb hc hd he
      simp [List.isPrefixOf, codes] at hpre
    show (if a = 115 ∧ b = 97 ∧ c = 114 ∧ d = 97 ∧ e = 104 then
        115 :: 97 :: 114 :: 97 :: replSarah rest
      else a :: replSarah (b :: c :: d :: e :: rest)) = a :: b :: c :: d :: e :: rest
    rw [if_neg hne]
    rw [replSarah_id (b :: c :: d :: e :: rest) htail]

/-- `dropWhile` is idempotent. -/
theorem dropWhile_idem (p : Nat → Bool) : ∀ l : List Nat,
    (l.dropWhile p).dropWhile p = l.dropWhile p
  | [] => rfl
  | c :: rest => by
    rw [List.dropWhile_cons]
    by_cases h : p c = true
    · rw [if_pos h]
      exact dropWhile_idem p rest
    · rw [if_neg h, List.dropWhile_cons, if_neg h]

/-- `stripTrail` is idempotent. -/
theorem stripTrail_idem : ∀ l : List Nat, stripTrail (stripTrail l) = stripTrail l
  | [] => rfl
  | c :: rest => by
    by_cases h : stripTrail rest = [] ∧ isSpaceCode c = true
    · have hcut : stripTrail (c :: rest) = [] := by
        show (if stripTrail rest = [] ∧ isSpaceCode c = true then []
          else c :: stripTrail rest) = []
        rw [if_pos h]
      rw [hcut]
      rfl
    · have hkeep : stripTrail (c :: rest) = c :: stripTrail rest := by
        show (if stripTrail rest = [] ∧ isSpaceCode c = true then []
          else c :: stripTrail rest) = c :: stripTrail rest
        rw [if_neg h]
      rw [hkeep]
      have h2 : ¬(stripTrail (stripTrail rest) = [] ∧ isSpaceCode c = true) := by
        rw [stripTrail_idem rest]
        exact h
      show (if stripTrail (stripTrail rest) = [] ∧ isSpaceCode c = true then []
        else c :: stripTrail (stripTrail rest)) = c :: stripTrail rest
      rw [if_neg h2, stripTrail_idem rest]

/-- Leading and trailing strips commute. -/
theorem stripTrail_stripLead : ∀ l : List Nat,
    stripTrail (stripLead l) = stripLead (stripTrail l)
  | [] => rfl
  | c :: rest => by
    have ih := stripTrail_stripLead rest
    by_cases hc : isSpaceCode c = true
    · by_cases h : stripTrail rest = []
      · have hcut : stripTrail (c :: rest) = [] := by
          show (if stripTrail rest = [] ∧ isSpaceCode c = true then []
            else c :: stripTrail rest) = []
          rw [if_pos ⟨h, hc⟩]
        unfold stripLead at ih ⊢
        rw [List.dropWhile_cons, if_pos hc, ih, hcut, h]
      · have hkeep : stripTrail (c :: rest) = c :: stripTrail rest := by
          show (if stripTrail rest = [] ∧ isSpaceCode c = true then []
            else c :: stripTrail rest) = c :: stripTrail rest
          rw [if_neg fun hcon => h hcon.1]
        unfold stripLead at ih ⊢
        rw [List.dropWhile_cons, if_pos hc, ih, hkeep, List.dropWhile_cons, if_pos hc]
    · have hkeep : stripTrail (c :: rest) = c :: stripTrail rest := by
        show (if stripTrail rest = [] ∧ isSpaceCode c = true then []
          else c :: stripTrail rest) = c :: stripTrail rest
        rw [if_neg fun hcon => hc hcon.2]
      unfold stripLead
      rw [List.dropWhile_cons, if_neg hc, hkeep, List.dropWhile_cons, if_neg hc]

/-- `str.strip()` is idempotent. -/
theorem pyStrip_idem (l : List Nat) : pyStrip (pyStrip l) = pyStrip l := by
  unfold pyStrip
  rw [stripTrail_stripLead (stripTrail l), stripTrail_idem l]
  unfold stripLead
  exact dropWhile_idem _ _

/-- A tail of a collapsed string is collapsed. -/
theorem collapsedB_tail {a : Nat} {t : List Nat} (h : collapsedB (a :: t) = true) :
    collapsedB t = true := by
  cases t with
  | nil => rfl
  | cons b rest =>
    have heq : collapsedB (a :: b :: rest)
        = ((!isSpaceCode a || a == 32) && !(a == 32 && b == 32) && collapsedB (b :: rest)) :=
      rfl
    rw [heq, Bool.and_eq_true, Bool.and_eq_true] at h
    exact h.2

/-- After a space was just emitted, the next emitted character is not
whitespace. -/
theorem collapseAux_head_nonspace :
    ∀ (l : List Nat) (c : Nat), (collapseAux true l).head? = some c → isSpaceCode c = false
  | [], c => by simp [collapseAux]
  | d :: rest, c => by
    intro h
    simp only [collapseAux] at h
    split at h
    · exact collapseAux_head_nonspace rest c h
    · rename_i hd
      have : d = c := by simpa using h
      subst this
      simpa using hd

/-- The output of whitespace collapsing is collapsed. -/
theorem collapse_collapsed : ∀ (l : List Nat) (b : Bool), collapsedB (collapseAux b l) = true
  | [], b => rfl
  | c :: rest, b => by
    by_cases hc : isSpaceCode c = true
    · by_cases hb : b = true
      · subst hb
        have heq : collapseAux true (c :: rest) = collapseAux true rest := by
          show (if isSpaceCode c = true then
            (if true = true then collapseAux true rest else 32 :: collapseAux true rest)
            else c :: collapseAux false rest) = collapseAux true rest
          rw [if_pos hc, if_pos rfl]
        rw [heq]
        exact collapse_collapsed rest true
      · have hb' : b = false := by simpa using hb
        subst hb'
        have heq : collapseAux false (c :: rest) = 32 :: collapseAux true rest := by
          show (if isSpaceCode c = true then
            (if false = true then collapseAux true rest else 32 :: collapseAux true rest)
            else c :: collapseAux false rest) = 32 :: collapseAux true rest
          rw [if_pos hc, if_neg (by simp)]
        rw [heq]
        cases hX : collapseAux true rest with
        | nil => decide
        | cons x xs =>
          have hx : isSpaceCode x = false :=
            collapseAux_head_nonspace rest x (by rw [hX]; rfl)
          have hx32 : (x == 32) = false := by
            rw [beq_eq_false_iff_ne]
            intro hx'
            subst hx'
            exact absurd hx (by decide)
          have heq2 : collapsedB (32 :: x :: xs)
              = ((!isSpaceCode 32 || 32 == 32) && !((32:Nat) == 32 && x == 32)
                  && collapsedB (x :: xs)) := rfl
          rw [heq2, hx32]
          have hrec := collapse_collapsed rest true
          rw [hX] at hrec
          rw [hrec]
          decide
    · have heq : collapseAux b (c :: rest) = c :: collapseAux false rest := by
        show (if isSpaceCode c = true then
          (if b = true then collapseAux true rest else 32 :: collapseAux true rest)
          else c :: collapseAux false rest) = c :: collapseAux false rest
        rw [if_neg hc]
      rw [heq]
      have hc' : isSpaceCode c = false := by
        simpa using hc
      cases hY : collapseAux false rest with
      | nil =>
        have hone : collapsedB [c] = (!isSpaceCode c || c == 32) := rfl
        rw [hone, hc']
        rfl
      | cons y ys =>
        have heq2 : collapsedB (c :: y :: ys)
            = ((!isSpaceCode c || c == 32) && !(c == 32 && y == 32)
                && collapsedB (y :: ys)) := rfl
        rw [heq2, hc']
        have hc32 : (c == 32) = false := by
          rw [beq_eq_false_iff_ne]
          intro hceq
          subst hceq
          exact hc rfl
        rw [hc32]
        have hrec := collapse_collapsed rest false
        rw [hY] at hrec
        rw [hrec]
        rfl

/-- `replSarah` preserves the head character. -/
theorem replSarah_head : ∀ l : List Nat, (replSarah l).head? = l.head?
  | [] => rfl
  | [a] => rfl
  | [a, b] => rfl
  | [a, b, c] => rfl
  | [a, b, c, d] => rfl
  | a :: b :: c :: d :: e :: rest => by
    simp only [replSarah]
    split
    · rename_i hs
      obtain ⟨ha, _, _, _, _⟩ := hs
      subst ha
      rfl
    · rfl

/-- `replSarah` preserves collapsedness. -/
theorem collapsed_replSarah : ∀ l : List Nat, collapsedB l = true → collapsedB (replSarah l) = true
  | [] => fun h => h
  | [a] => fun h => h
  | [a, b] => fun h => h
  | [a, b, c] => fun h => h
  | [a, b, c, d] => fun h => h
  | a :: b :: c :: d :: e :: rest => by
    intro h
    simp only [replSarah]
    split
    · rename_i hs
      obtain ⟨ha, hb, hc, hd, he⟩ := hs
      subst ha hb hc hd he
      have h4 : collapsedB rest = true :=
        collapsedB_tail (collapsedB_tail (collapsedB_tail (collapsedB_tail
          (collapsedB_tail h))))
      have hrec := collapsed_replSarah rest h4
      cases hX : replSarah rest with
      | nil => decide
      | cons x xs =>
        rw [hX] at hrec
        have heq : collapsedB (115 :: 97 :: 114 :: 97 :: x :: xs)
            = ((!isSpaceCode 115 || (115:Nat) == 32) && !((115:Nat) == 32 && (97:Nat) == 32)
                && ((!isSpaceCode 97 || (97:Nat) == 32) && !((97:Nat) == 32 && (114:Nat) == 32)
                && ((!isSpaceCode 114 || (114:Nat) == 32) && !((114:Nat) == 32 && (97:Nat) == 32)
                && ((!isSpaceCode 97 || (97:Nat) == 32) && !((97:Nat) == 32 && x == 32)
                && collapsedB (x :: xs))))) := rfl
        rw [heq, hrec]
        simp
        refine ⟨by decide, by decide, by decide, by decide⟩
    · have htail : collapsedB (b :: c :: d :: e :: rest) = true := collapsedB_tail h
      have hrec := collapsed_replSarah (b :: c :: d :: e :: rest) htail
      have hhead : (replSarah (b :: c :: d :: e :: rest)).head? = some b :=
        replSarah_head _
      cases hY : replSarah (b :: c :: d :: e :: rest) with
      | nil =>
        rw [hY] at hhead
        exact Option.noConfusion hhead
      | cons y ys =>
        rw [hY] at hhead hrec
        have hyb : y = b := by
          simpa using hhead
        rw [hyb] at hrec ⊢
        have heqin : collapsedB (a :: b :: c :: d :: e :: rest)
            = ((!isSpaceCode a || a == 32) && !(a == 32 && b == 32)
                && collapsedB (b :: c :: d :: e :: rest)) := rfl
        rw [heqin, Bool.and_eq_true, Bool.and_eq_true] at h
        have heqout : collapsedB (a :: b :: ys)
            = ((!isSpaceCode a || a == 32) && !(a == 32 && b == 32)
                && collapsedB (b :: ys)) := rfl
        rw [heqout, h.1.1, h.1.2, hrec]
        rfl

/-- A prefix of a collapsed string is collapsed. -/
theorem collapsedB_prefix : ∀ (xs ys : List Nat), collapsedB (xs ++ ys) = true →
    collapsedB xs = true
  | [], ys => fun _ => rfl
  | [a], ys => by
    intro h
    cases ys with
    | nil => exact h
    | cons y ys' =>
      have heq : collapsedB (a :: y :: ys')
          = ((!isSpaceCode a || a == 32) && !(a == 32 && y == 32)
              && collapsedB (y :: ys')) := rfl
      rw [List.singleton_append, heq, Bool.and_eq_true, Bool.and_eq_true] at h
      exact h.1.1
  | a :: b :: xs', ys => by
    intro h
    have heq1 : collapsedB (a :: b :: (xs' ++ ys))
        = ((!isSpaceCode a || a == 32) && !(a == 32 && b == 32)
            && collapsedB (b :: (xs' ++ ys))) := rfl
    rw [List.cons_append, List.cons_append, heq1, Bool.and_eq_true, Bool.and_eq_true] at h
    have hrec := collapsedB_prefix (b :: xs') ys (by rw [List.cons_append]; exact h.2)
    have heq2 : collapsedB (a :: b :: xs')
        = ((!isSpaceCode a || a == 32) && !(a == 32 && b == 32)
            && collapsedB (b :: xs')) := rfl
    rw [heq2, h.1.1, h.1.2, hrec]
    rfl

/-- `stripTrail` preserves collapsedness. -/
theorem collapsed_stripTrail {l : List Nat} (h : collapsedB l = true) :
    collapsedB (stripTrail l) = true := by
  obtain ⟨t, ht⟩ := stripTrail_prefix l
  rw [ht] at h
  exact collapsedB_prefix _ _ h

/-- `stripLead` preserves collapsedness. -/
theorem collapsed_stripLead : ∀ l : List Nat, collapsedB l = true →
    collapsedB (stripLead l) = true
  | [] => fun h => h
  | c :: rest => by
    intro h
    unfold stripLead
    rw [List.dropWhile_cons]
    by_cases hc : isSpaceCode c = true
    · rw [if_pos hc]
      exact collapsed_stripLead rest (collapsedB_tail h)
    · rw [if_neg hc]
      exact h

/-- Whitespace collapsing is the identity on a collapsed string. -/
theorem collapseAux_id : ∀ l : List Nat, collapsedB l = true → collapseAux false l = l
  | [] => fun _ => rfl
  | c :: rest => by
    intro h
    by_cases hc : isSpaceCode c = true
    · have hc32 : c = 32 := by
        cases rest with
        | nil =>
          have heq : collapsedB [c] = (!isSpaceCode c || c == 32) := rfl
          rw [heq, hc] at h
          simpa using h
        | cons d rest' =>
          have heq : collapsedB (c :: d :: rest')
              = ((!isSpaceCode c || c == 32) && !(c == 32 && d == 32)
                  && collapsedB (d :: rest')) := rfl
          rw [heq, hc, Bool.and_eq_true, Bool.and_eq_true] at h
          simpa using h.1.1
      subst hc32
      have heq : collapseAux false (32 :: rest) = 32 :: collapseAux true rest := by
        show (if isSpaceCode 32 = true then
          (if false = true then collapseAux true rest else 32 :: collapseAux true rest)
          else 32 :: collapseAux false rest) = 32 :: collapseAux true rest
        rw [if_pos (by decide), if_neg (by simp)]
      rw [heq]
      cases rest with
      | nil => rfl
      | cons d rest' =>
        have heqh : collapsedB (32 :: d :: rest')
            = ((!isSpaceCode 32 || (32:Nat) == 32) && !((32:Nat) == 32 && d == 32)
                && collapsedB (d :: rest')) := rfl
        rw [heqh, Bool.and_eq_true, Bool.and_eq_true] at h
        have hd32 : (d == 32) = false := by
          have := h.1.2
          simpa using this
        have hdsp : isSpaceCode d = false := by
          have hcb := h.2
          cases rest' with
          | nil =>
            have heqd : collapsedB [d] = (!isSpaceCode d || d == 32) := rfl
            rw [heqd, hd32] at hcb
            simpa using hcb
          | cons e rest'' =>
            have heqd : collapsedB (d :: e :: rest'')
                = ((!isSpaceCode d || d == 32) && !(d == 32 && e == 32)
                    && collapsedB (e :: rest'')) := rfl
            rw [heqd, hd32, Bool.and_eq_true, Bool.and_eq_true] at hcb
            simpa using hcb.1.1
        have heqt : collapseAux true (d :: rest') = d :: collapseAux false rest' := by
          show (if isSpaceCode d = true then
            (if true = true then collapseAux true rest' else 32 :: collapseAux true rest')
            else d :: collapseAux false rest') = d :: collapseAux false rest'
          rw [if_neg (by rw [hdsp]; simp)]
        have heqf : collapseAux false (d :: rest') = d :: collapseAux false rest' := by
          show (if isSpaceCode d = true then
            (if false = true then collapseAux true rest' else 32 :: collapseAux true rest')
            else d :: collapseAux false rest') = d :: collapseAux false rest'
          rw [if_neg (by rw [hdsp]; simp)]
        have hrec := collapseAux_id (d :: rest') h.2
        rw [heqt, ← heqf, hrec]
    · have heq : collapseAux false (c :: rest) = c :: collapseAux false rest := by
        show (if isSpaceCode c = true then
          (if false = true then collapseAux true rest else 32 :: collapseAux true rest)
          else c :: collapseAux false rest) = c :: collapseAux false rest
        rw [if_neg hc]
      rw [heq, collapseAux_id rest (collapsedB_tail h)]

/-- Word runs ignore a non-word head. -/
theorem wordRuns_cons_nonword {c : Nat} {rest : List Nat} (h : isWordCode c = false) :
    wordRuns (c :: rest) = wordRuns rest := by
  simp only [wordRuns]
  rw [if_neg (by rw [h]; simp)]

/-- Word runs of a word-headed string: the head run, then the runs of the
remainder. -/
theorem wordRuns_cons_word {c : Nat} {rest : List Nat} (h : isWordCode c = true) :
    wordRuns (c :: rest)
      = (c :: rest.takeWhile isWordCode) :: wordRuns (rest.dropWhile isWordCode) := by
  simp only [wordRuns]
  rw [if_pos h]

/-- The remainder after dropping the leading word run starts with a non-word
character, or is empty. -/
theorem bOk_dropWhile : ∀ l : List Nat, bOk (l.dropWhile isWordCode) = true
  | [] => rfl
  | c :: rest => by
    rw [List.dropWhile_cons]
    by_cases h : isWordCode c = true
    · rw [if_pos h]
      exact bOk_dropWhile rest
    · rw [if_neg h]
      have h' : isWordCode c = false := by simpa using h
      have hb : bOk (c :: rest) = !isWordCode c := rfl
      rw [hb, h']
      rfl

/-- `takeWhile`/`dropWhile` on a word block followed by a non-word-headed
remainder. -/
theorem takeWhile_word_append : ∀ (w X : List Nat), (∀ a ∈ w, isWordCode a = true) →
    bOk X = true →
    (w ++ X).takeWhile isWordCode = w ∧ (w ++ X).dropWhile isWordCode = X
  | [], X => by
    intro _ hX
    cases X with
    | nil => exact ⟨rfl, rfl⟩
    | cons c rest =>
      have hc : isWordCode c = false := by
        have hb : bOk (c :: rest) = !isWordCode c := rfl
        rw [hb] at hX
        simpa using hX
      constructor
      · rw [List.nil_append, List.takeWhile_cons, if_neg (by rw [hc]; simp)]
      · rw [List.nil_append, List.dropWhile_cons, if_neg (by rw [hc]; simp)]
  | a :: w', X => by
    intro hw hX
    have ha : isWordCode a = true := hw a (List.mem_cons_self _ _)
    have hw' : ∀ b ∈ w', isWordCode b = true := fun b hb => hw b (List.mem_cons_of_mem _ hb)
    obtain ⟨ht, hd⟩ := takeWhile_word_append w' X hw' hX
    constructor
    · rw [List.cons_append, List.takeWhile_cons, if_pos ha, ht]
    · rw [List.cons_append, List.dropWhile_cons, if_pos ha, hd]

/-- The word runs of one non-empty all-word string. -/
theorem wordRuns_all_word {m : List Nat} (hne : m ≠ [])
    (hw : ∀ a ∈ m, isWordCode a = true) : wordRuns m = [m] := by
  cases m with
  | nil => exact absurd rfl hne
  | cons a t =>
    have ha : isWordCode a = true := hw a (List.mem_cons_self _ _)
    have hw' : ∀ b ∈ t, isWordCode b = true := fun b hb => hw b (List.mem_cons_of_mem _ hb)
    obtain ⟨ht, hd⟩ := takeWhile_word_append t [] hw' rfl
    rw [List.append_nil] at ht hd
    rw [wordRuns_cons_word ha, ht, hd]
    have hnil : wordRuns ([] : List Nat) = [] := by simp only [wordRuns]
    rw [hnil]

/-- Word runs of a word block followed by a non-word-headed remainder. -/
theorem wordRuns_append {w X : List Nat} (hne : w ≠ [])
    (hw : ∀ a ∈ w, isWordCode a = true) (hX : bOk X = true) :
    wordRuns (w ++ X) = w :: wordRuns X := by
  cases w with
  | nil => exact absurd rfl hne
  | cons a w' =>
    have ha : isWordCode a = true := hw a (List.mem_cons_self _ _)
    have hw' : ∀ b ∈ w', isWordCode b = true := fun b hb => hw b (List.mem_cons_of_mem _ hb)
    obtain ⟨ht, hd⟩ := takeWhile_word_append w' X hw' hX
    rw [List.cons_append, wordRuns_cons_word ha, ht, hd]

/-- Unpacking a successful 2-letter token test. -/
theorem tok2_cases {c d : Nat} {rest : List Nat} (h : tok2 c d rest = true) :
    ((c = 109 ∧ d = 100) ∨ (c = 100 ∧ d = 111)) ∧ bOk rest = true := by
  unfold tok2 at h
  rw [Bool.and_eq_true, Bool.or_eq_true, Bool.and_eq_true, Bool.and_eq_true] at h
  simp only [beq_iff_eq] at h
  exact h

/-- Unpacking a successful 3-letter token test. -/
theorem tok3_cases {c d e : Nat} {rest : List Nat} (h : tok3 c d e rest = true) :
    ((c = 112 ∧ d = 104 ∧ e = 100) ∨ (c = 100 ∧ d = 100 ∧ e = 115)) ∧ bOk rest = true := by
  unfold tok3 at h
  rw [Bool.and_eq_true, Bool.or_eq_true, Bool.and_eq_true, Bool.and_eq_true,
    Bool.and_eq_true, Bool.and_eq_true] at h
  simp only [beq_iff_eq] at h
  tauto

/-- Token-freedom transfers to the remainder after the head run. -/
theorem tokenFree_of_cons_word {c : Nat} {rest : List Nat} (hc : isWordCode c = true)
    (h : tokenFree (c :: rest)) : tokenFree (rest.dropWhile isWordCode) := by
  intro r hr
  refine h r ?_
  rw [wordRuns_cons_word hc]
  exact List.mem_cons_of_mem _ hr

/-- Token-freedom transfers over a non-word head. -/
theorem tokenFree_of_cons_nonword {c : Nat} {rest : List Nat} (hc : isWordCode c = false)
    (h : tokenFree (c :: rest)) : tokenFree rest := by
  intro r hr
  refine h r ?_
  rw [wordRuns_cons_nonword hc]
  exact hr

/-- `subDeg` is the identity when its precondition holds: nothing is left for
the degree-token substitution to match. -/
theorem subDeg_id : ∀ (l : List Nat) (p : Bool), degPre p l → subDeg p l = l
  | [], p => fun _ => rfl
  | [c], p => fun _ => rfl
  | [c, d], p => by
    intro h
    have hcond : (!p && tok2 c d []) = false := by
      cases p with
      | true => rfl
      | false =>
        rw [Bool.and_eq_false_iff]
        right
        rw [← Bool.not_eq_true]
        intro htok
        obtain ⟨hcd, _⟩ := tok2_cases htok
        have hruns : wordRuns [c, d] = [[c, d]] := by
          refine wordRuns_all_word (by simp) ?_
          rcases hcd with ⟨rfl, rfl⟩ | ⟨rfl, rfl⟩ <;> decide
        have hfree : tokenFree [c, d] := by
          unfold degPre at h
          rw [if_neg (show ¬((false : Bool) = true) by simp)] at h
          exact h
        refine hfree [c, d] ?_ ?_
        · rw [hruns]
          exact List.mem_cons_self _ _
        · rcases hcd with ⟨rfl, rfl⟩ | ⟨rfl, rfl⟩ <;> decide
    show (if (!p && tok2 c d []) = true then [] else c :: subDeg (isWordCode c) [d]) = [c, d]
    rw [hcond, if_neg (by simp)]
    rfl
  | c :: d :: e :: rest, p => by
    intro h
    by_cases hp : p = true
    · subst hp
      have heq : subDeg true (c :: d :: e :: rest)
          = c :: subDeg (isWordCode c) (d :: e :: rest) := by
        show (if (!true && tok2 c d (e :: rest)) = true then subDeg true (e :: rest)
          else if (!true && tok3 c d e rest) = true then subDeg true rest
          else c :: subDeg (isWordCode c) (d :: e :: rest)) = _
        rw [if_neg (by simp), if_neg (by simp)]
      rw [heq]
      unfold degPre at h
      rw [if_pos (show (true : Bool) = true from rfl)] at h
      by_cases hc : isWordCode c = true
      · rw [hc]
        refine congrArg _ (subDeg_id (d :: e :: rest) true ?_)
        unfold degPre
        rw [if_pos (show (true : Bool) = true from rfl)]
        rw [List.dropWhile_cons, if_pos hc] at h
        exact h
      · have hc' : isWordCode c = false := by simpa using hc
        rw [hc']
        refine congrArg _ (subDeg_id (d :: e :: rest) false ?_)
        unfold degPre
        rw [if_neg (show ¬((false : Bool) = true) by simp)]
        rw [List.dropWhile_cons, if_neg (by rw [hc']; simp)] at h
        exact tokenFree_of_cons_nonword hc' h
    · have hp' : p = false := by simpa using hp
      subst hp'
      unfold degPre at h
      rw [if_neg (show ¬((false : Bool) = true) by simp)] at h
      have hfree : tokenFree (c :: d :: e :: rest) := h
      have hcond2 : tok2 c d (e :: rest) = false := by
        rw [← Bool.not_eq_true]
        intro htok
        obtain ⟨hcd, hb⟩ := tok2_cases htok
        have hwcd : ∀ a ∈ [c, d], isWordCode a = true := by
          rcases hcd with ⟨rfl, rfl⟩ | ⟨rfl, rfl⟩ <;> decide
        have hruns : wordRuns (c :: d :: e :: rest)
            = [c, d] :: wordRuns (e :: rest) := by
          have h2 := wordRuns_append (w := [c, d]) (X := e :: rest) (by simp) hwcd hb
          simpa using h2
        refine hfree [c, d] (by rw [hruns]; exact List.mem_cons_self _ _) ?_
        rcases hcd with ⟨rfl, rfl⟩ | ⟨rfl, rfl⟩ <;> decide
      have hcond3 : tok3 c d e rest = false := by
        rw [← Bool.not_eq_true]
        intro htok
        obtain ⟨hcde, hb⟩ := tok3_cases htok
        have hwcde : ∀ a ∈ [c, d, e], isWordCode a = true := by
          rcases hcde with ⟨rfl, rfl, rfl⟩ | ⟨rfl, rfl, rfl⟩ <;> decide
        have hruns : wordRuns (c :: d :: e :: rest)
            = [c, d, e] :: wordRuns rest := by
          have h2 := wordRuns_append (w := [c, d, e]) (X := rest) (by simp) hwcde hb
          simpa using h2
        refine hfree [c, d, e] (by rw [hruns]; exact List.mem_cons_self _ _) ?_
        rcases hcde with ⟨rfl, rfl, rfl⟩ | ⟨rfl, rfl, rfl⟩ <;> decide
      have heq : subDeg false (c :: d :: e :: rest)
          = c :: subDeg (isWordCode c) (d :: e :: rest) := by
        show (if (!false && tok2 c d (e :: rest)) = true then subDeg true (e :: rest)
          else if (!false && tok3 c d e rest) = true then subDeg true rest
          else c :: subDeg (isWordCode c) (d :: e :: rest)) = _
        rw [if_neg (by rw [hcond2]; simp), if_neg (by rw [hcond3]; simp)]
      rw [heq]
      by_cases hc : isWordCode c = true
      · rw [hc]
        refine congrArg _ (subDeg_id (d :: e :: rest) true ?_)
        unfold degPre
        rw [if_pos (show (true : Bool) = true from rfl)]
        exact tokenFree_of_cons_word hc hfree
      · have hc' : isWordCode c = false := by simpa using hc
        rw [hc']
        refine congrArg _ (subDeg_id (d :: e :: rest) false ?_)
        unfold degPre
        rw [if_neg (show ¬((false : Bool) = true) by simp)]
        exact tokenFree_of_cons_nonword hc' hfree

/-- Word runs of the empty string. -/
theorem wordRuns_nil : wordRuns ([] : List Nat) = [] := by
  simp only [wordRuns]

/-- A 2-letter token cannot start at a non-word character. -/
theorem tok2_nonword {c d : Nat} {rest : List Nat} (hc : isWordCode c = false) :
    tok2 c d rest = false := by
  have h1 : (c == 109) = false := by
    rw [beq_eq_false_iff_ne]
    intro h
    subst h
    exact absurd hc (by decide)
  have h2 : (c == 100) = false := by
    rw [beq_eq_false_iff_ne]
    intro h
    subst h
    exact absurd hc (by decide)
  unfold tok2
  rw [h1, h2]
  rfl

/-- A 3-letter token cannot start at a non-word character. -/
theorem tok3_nonword {c d e : Nat} {rest : List Nat} (hc : isWordCode c = false) :
    tok3 c d e rest = false := by
  have h1 : (c == 112) = false := by
    rw [beq_eq_false_iff_ne]
    intro h
    subst h
    exact absurd hc (by decide)
  have h2 : (c == 100) = false := by
    rw [beq_eq_false_iff_ne]
    intro h
    subst h
    exact absurd hc (by decide)
  unfold tok3
  rw [h1, h2]
  rfl

/-- `subDeg` passes an unmatched non-word head through and resets the state. -/
theorem subDeg_cons_nonword {c : Nat} (t : List Nat) (p : Bool)
    (hc : isWordCode c = false) : subDeg p (c :: t) = c :: subDeg false t := by
  cases t with
  | nil => rfl
  | cons d t' =>
    cases t' with
    | nil =>
      show (if (!p && tok2 c d []) = true then [] else c :: subDeg (isWordCode c) [d])
        = c :: subDeg false [d]
      rw [tok2_nonword hc, hc]
      simp
    | cons e t'' =>
      show (if (!p && tok2 c d (e :: t'')) = true then subDeg true (e :: t'')
        else if (!p && tok3 c d e t'') = true then subDeg true t''
        else c :: subDeg (isWordCode c) (d :: e :: t'')) = c :: subDeg false (d :: e :: t'')
      rw [tok2_nonword hc, tok3_nonword hc, hc]
      simp

/-- With a pending word character, `subDeg` passes a word-character head
through. -/
theorem subDeg_true_cons_word {c : Nat} (t : List Nat) (hc : isWordCode c = true) :
    subDeg true (c :: t) = c :: subDeg true t := by
  cases t with
  | nil => rfl
  | cons d t' =>
    cases t' with
    | nil =>
      show (if (!true && tok2 c d []) = true then [] else c :: subDeg (isWordCode c) [d])
        = c :: subDeg true [d]
      rw [hc]
      simp
    | cons e t'' =>
      show (if (!true && tok2 c d (e :: t'')) = true then subDeg true (e :: t'')
        else if (!true && tok3 c d e t'') = true then subDeg true t''
        else c :: subDeg (isWordCode c) (d :: e :: t'')) = c :: subDeg true (d :: e :: t'')
      rw [hc]
      simp

/-- On a non-word-headed string the pending-word state is irrelevant. -/
theorem subDeg_true_eq_false {l : List Nat} (hb : bOk l = true) :
    subDeg true l = subDeg false l := by
  cases l with
  | nil => rfl
  | cons c rest =>
    have hc : isWordCode c = false := by
      have hbc : bOk (c :: rest) = !isWordCode c := rfl
      rw [hbc] at hb
      simpa using hb
    rw [subDeg_cons_nonword rest true hc, subDeg_cons_nonword rest false hc]

/-- With a pending word character, `subDeg` copies the head word run
verbatim. -/
theorem subDeg_true_decomp : ∀ l : List Nat,
    subDeg true l = l.takeWhile isWordCode ++ subDeg true (l.dropWhile isWordCode)
  | [] => by simp
  | c :: rest => by
    by_cases hc : isWordCode c = true
    · rw [subDeg_true_cons_word rest hc, List.takeWhile_cons, if_pos hc,
        List.dropWhile_cons, if_pos hc, List.cons_append, subDeg_true_decomp rest]
    · have hc' : isWordCode c = false := by simpa using hc
      rw [List.takeWhile_cons, if_neg hc, List.dropWhile_cons, if_neg hc, List.nil_append]

/-- `subDeg false` keeps the non-word-headedness of its input. -/
theorem bOk_subDeg {l : List Nat} (hb : bOk l = true) : bOk (subDeg false l) = true := by
  cases l with
  | nil => rfl
  | cons c rest =>
    have hc : isWordCode c = false := by
      have hbc : bOk (c :: rest) = !isWordCode c := rfl
      rw [hbc] at hb
      simpa using hb
    rw [subDeg_cons_nonword rest false hc]
    have hbc : bOk (c :: subDeg false rest) = !isWordCode c := rfl
    rw [hbc, hc]
    rfl

/-- An exhausted `takeWhile` means the string is non-word-headed. -/
theorem bOk_of_takeWhile_nil {l : List Nat} (h : l.takeWhile isWordCode = []) :
    bOk l = true := by
  cases l with
  | nil => rfl
  | cons c rest =>
    rw [List.takeWhile_cons] at h
    by_cases hc : isWordCode c = true
    · rw [if_pos hc] at h
      exact absurd h (by simp)
    · have hc' : isWordCode c = false := by simpa using hc
      have hbc : bOk (c :: rest) = !isWordCode c := rfl
      rw [hbc, hc']
      rfl

/-- A run of length at least 4 is not a degree token. -/
theorem long_not_tok {r : List Nat} (h : 4 ≤ r.length) : r ∉ degToks := by
  intro hmem
  unfold degToks at hmem
  rcases List.mem_cons.mp hmem with rfl | hmem1
  · simp at h
  rcases List.mem_cons.mp hmem1 with rfl | hmem2
  · simp at h
  rcases List.mem_cons.mp hmem2 with rfl | hmem3
  · simp at h
  rcases List.mem_cons.mp hmem3 with rfl | hmem4
  · simp at h
  · simp at hmem4

/-- A run of length 1 is not a degree token. -/
theorem singleton_not_tok (c : Nat) : [c] ∉ degToks := by
  intro hmem
  unfold degToks at hmem
  rcases List.mem_cons.mp hmem with h | hmem1
  · simp at h
  rcases List.mem_cons.mp hmem1 with h | hmem2
  · simp at h
  rcases List.mem_cons.mp hmem2 with h | hmem3
  · simp at h
  rcases List.mem_cons.mp hmem3 with h | hmem4
  · simp at h
  · simp at hmem4

/-- A pair failing the (boundary-satisfied) 2-letter token test is not a
degree token. -/
theorem pair_not_tok {c d : Nat} {rest : List Nat} (htok : tok2 c d rest = false)
    (hb : bOk rest = true) : [c, d] ∉ degToks := by
  intro hmem
  have htrue : tok2 c d rest = true := by
    unfold degToks at hmem
    unfold tok2
    rw [hb]
    rcases List.mem_cons.mp hmem with h | hmem1
    · obtain ⟨rfl, rfl⟩ : c = 109 ∧ d = 100 := by simpa using h
      rfl
    rcases List.mem_cons.mp hmem1 with h | hmem2
    · obtain ⟨rfl, rfl⟩ : c = 100 ∧ d = 111 := by simpa using h
      rfl
    rcases List.mem_cons.mp hmem2 with h | hmem3
    · exact absurd h (by simp)
    rcases List.mem_cons.mp hmem3 with h | hmem4
    · exact absurd h (by simp)
    · exact absurd hmem4 (by simp)
  rw [htrue] at htok
  exact Bool.noConfusion htok

/-- A triple failing the (boundary-satisfied) 3-letter token test is not a
degree token. -/
theorem triple_not_tok {c d e : Nat} {rest : List Nat} (htok : tok3 c d e rest = false)
    (hb : bOk rest = true) : [c, d, e] ∉ degToks := by
  intro hmem
  have htrue : tok3 c d e rest = true := by
    unfold degToks at hmem
    unfold tok3
    rw [hb]
    rcases List.mem_cons.mp hmem with h | hmem1
    · exact absurd h (by simp)
    rcases List.mem_cons.mp hmem1 with h | hmem2
    · exact absurd h (by simp)
    rcases List.mem_cons.mp hmem2 with h | hmem3
    · obtain ⟨rfl, rfl, rfl⟩ : c = 112 ∧ d = 104 ∧ e = 100 := by simpa using h
      rfl
    rcases List.mem_cons.mp hmem3 with h | hmem4
    · obtain ⟨rfl, rfl, rfl⟩ : c = 100 ∧ d = 100 ∧ e = 115 := by simpa using h
      rfl
    · exact absurd hmem4 (by simp)
  rw [htrue] at htok
  exact Bool.noConfusion htok

/-- The output of the degree-token substitution is token-free: every matched
whole-word token is removed, and removals cannot create new whole-word
tokens, because the characters adjacent to a removed token are non-word. -/
theorem subDeg_tokenFree : ∀ l : List Nat, tokenFree (subDeg false l)
  | [] => by
    intro r hr
    rw [show subDeg false [] = [] from rfl, wordRuns_nil] at hr
    exact absurd hr (List.not_mem_nil r)
  | [c] => by
    intro r hr
    rw [show subDeg false [c] = [c] from rfl] at hr
    by_cases hc : isWordCode c = true
    · rw [wordRuns_cons_word hc] at hr
      simp only [List.takeWhile_nil, List.dropWhile_nil, wordRuns_nil] at hr
      rcases List.mem_cons.mp hr with rfl | h2
      · exact singleton_not_tok c
      · exact absurd h2 (List.not_mem_nil r)
    · have hc' : isWordCode c = false := by simpa using hc
      rw [wordRuns_cons_nonword hc', wordRuns_nil] at hr
      exact absurd hr (List.not_mem_nil r)
  | [c, d] => by
    by_cases htok : tok2 c d [] = true
    · have heq : subDeg false [c, d] = [] := by
        show (if (!false && tok2 c d []) = true then []
          else c :: subDeg (isWordCode c) [d]) = []
        rw [if_pos (by rw [htok]; rfl)]
      intro r hr
      rw [heq, wordRuns_nil] at hr
      exact absurd hr (List.not_mem_nil r)
    · have htok' : tok2 c d [] = false := by simpa using htok
      have heq : subDeg false [c, d] = [c, d] := by
        show (if (!false && tok2 c d []) = true then []
          else c :: subDeg (isWordCode c) [d]) = [c, d]
        rw [if_neg (by rw [htok']; simp)]
        rfl
      intro r hr
      rw [heq] at hr
      by_cases hc : isWordCode c = true
      · rw [wordRuns_cons_word hc] at hr
        by_cases hd : isWordCode d = true
        · have ht : [d].takeWhile isWordCode = [d] := by
            rw [List.takeWhile_cons, if_pos hd]
            rfl
          have hdp : [d].dropWhile isWordCode = [] := by
            rw [List.dropWhile_cons, if_pos hd]
            rfl
          rw [ht, hdp, wordRuns_nil] at hr
          rcases List.mem_cons.mp hr with rfl | h2
          · exact pair_not_tok htok' rfl
          · exact absurd h2 (List.not_mem_nil r)
        · have hd' : isWordCode d = false := by simpa using hd
          have ht : [d].takeWhile isWordCode = [] := by
            rw [List.takeWhile_cons, if_neg hd]
          have hdp : [d].dropWhile isWordCode = [d] := by
            rw [List.dropWhile_cons, if_neg hd]
          rw [ht, hdp, wordRuns_cons_nonword hd', wordRuns_nil] at hr
          rcases List.mem_cons.mp hr with rfl | h2
          · exact singleton_not_tok c
          · exact absurd h2 (List.not_mem_nil r)
      · have hc' : isWordCode c = false := by simpa using hc
        rw [wordRuns_cons_nonword hc'] at hr
        by_cases hd : isWordCode d = true
        · rw [wordRuns_cons_word hd] at hr
          simp only [List.takeWhile_nil, List.dropWhile_nil, wordRuns_nil] at hr
          rcases List.mem_cons.mp hr with rfl | h2
          · exact singleton_not_tok d
          · exact absurd h2 (List.not_mem_nil r)
        · have hd' : isWordCode d = false := by simpa using hd
          rw [wordRuns_cons_nonword hd', wordRuns_nil] at hr
          exact absurd hr (List.not_mem_nil r)
  | c :: d :: e :: rest => by
    by_cases htok2 : tok2 c d (e :: rest) = true
    · have heq : subDeg false (c :: d :: e :: rest) = subDeg true (e :: rest) := by
        show (if (!false && tok2 c d (e :: rest)) = true then subDeg true (e :: rest)
          else if (!false && tok3 c d e rest) = true then subDeg true rest
          else c :: subDeg (isWordCode c) (d :: e :: rest)) = subDeg true (e :: rest)
        rw [if_pos (by rw [htok2]; rfl)]
      have hb : bOk (e :: rest) = true := (tok2_cases htok2).2
      rw [heq, subDeg_true_eq_false hb]
      exact subDeg_tokenFree (e :: rest)
    · have htok2' : tok2 c d (e :: rest) = false := by simpa using htok2
      by_cases htok3 : tok3 c d e rest = true
      · have heq : subDeg false (c :: d :: e :: rest) = subDeg true rest := by
          show (if (!false && tok2 c d (e :: rest)) = true then subDeg true (e :: rest)
            else if (!false && tok3 c d e rest) = true then subDeg true rest
            else c :: subDeg (isWordCode c) (d :: e :: rest)) = subDeg true rest
          rw [if_neg (by rw [htok2']; simp), if_pos (by rw [htok3]; rfl)]
        have hb : bOk rest = true := (tok3_cases htok3).2
        rw [heq, subDeg_true_eq_false hb]
        exact subDeg_tokenFree rest
      · have htok3' : tok3 c d e rest = false := by simpa using htok3
        have heq : subDeg false (c :: d :: e :: rest)
            = c :: subDeg (isWordCode c) (d :: e :: rest) := by
          show (if (!false && tok2 c d (e :: rest)) = true then subDeg true (e :: rest)
            else if (!false && tok3 c d e rest) = true then subDeg true rest
            else c :: subDeg (isWordCode c) (d :: e :: rest))
            = c :: subDeg (isWordCode c) (d :: e :: rest)
          rw [if_neg (by rw [htok2']; simp), if_neg (by rw [htok3']; simp)]
        rw [heq]
        by_cases hc : isWordCode c = true
        · rw [hc, subDeg_true_decomp (d :: e :: rest)]
          have hbdw : bOk ((d :: e :: rest).dropWhile isWordCode) = true := bOk_dropWhile _
          rw [subDeg_true_eq_false hbdw]
          have hbout : bOk (subDeg false ((d :: e :: rest).dropWhile isWordCode)) = true :=
            bOk_subDeg hbdw
          have hrunseq : wordRuns (c :: ((d :: e :: rest).takeWhile isWordCode
                ++ subDeg false ((d :: e :: rest).dropWhile isWordCode)))
              = (c :: (d :: e :: rest).takeWhile isWordCode)
                :: wordRuns (subDeg false ((d :: e :: rest).dropWhile isWordCode)) := by
            have happ := wordRuns_append
              (w := c :: (d :: e :: rest).takeWhile isWordCode)
              (X := subDeg false ((d :: e :: rest).dropWhile isWordCode))
              (by simp)
              (by
                intro a ha
                rcases List.mem_cons.mp ha with rfl | ha2
                · exact hc
                · exact List.mem_takeWhile_imp ha2)
              hbout
            simpa using happ
          intro r hr
          rw [hrunseq] at hr
          rcases List.mem_cons.mp hr with rfl | hr2
          · by_cases hd : isWordCode d = true
            · have htwd : (d :: e :: rest).takeWhile isWordCode
                  = d :: (e :: rest).takeWhile isWordCode := by
                rw [List.takeWhile_cons, if_pos hd]
              by_cases he : isWordCode e = true
              · have htwe : (e :: rest).takeWhile isWordCode
                    = e :: rest.takeWhile isWordCode := by
                  rw [List.takeWhile_cons, if_pos he]
                by_cases hrw : rest.takeWhile isWordCode = []
                · rw [htwd, htwe, hrw]
                  exact triple_not_tok htok3' (bOk_of_takeWhile_nil hrw)
                · rw [htwd, htwe]
                  refine long_not_tok ?_
                  have hpos : 0 < (rest.takeWhile isWordCode).length :=
                    List.length_pos.mpr hrw
                  simp only [List.length_cons]
                  omega
              · have he' : isWordCode e = false := by simpa using he
                have htwe : (e :: rest).takeWhile isWordCode = [] := by
                  rw [List.takeWhile_cons, if_neg he]
                rw [htwd, htwe]
                have hbe : bOk (e :: rest) = true := by
                  have hbc : bOk (e :: rest) = !isWordCode e := rfl
                  rw [hbc, he']
                  rfl
                exact pair_not_tok htok2' hbe
            · have htwd : (d :: e :: rest).takeWhile isWordCode = [] := by
                rw [List.takeWhile_cons, if_neg hd]
              rw [htwd]
              exact singleton_not_tok c
          · exact subDeg_tokenFree ((d :: e :: rest).dropWhile isWordCode) r hr2
        · have hc' : isWordCode c = false := by simpa using hc
          rw [hc']
          intro r hr
          rw [wordRuns_cons_nonword hc'] at hr
          exact subDeg_tokenFree (d :: e :: rest) r hr
termination_by l => l.length
decreasing_by
  · simp only [List.length_cons]
    omega
  · simp only [List.length_cons]
    omega
  · have hle : ∀ m : List Nat, (m.dropWhile isWordCode).length ≤ m.length :=
      fun m => (List.dropWhile_sublist _).length_le
    refine lt_of_le_of_lt (hle _) ?_
    simp only [List.length_cons]
    omega
  · simp only [List.length_cons]
    omega

/-- Collapsing passes an all-word prefix through unchanged. -/
theorem collapseAux_word_prefix : ∀ (w t : List Nat), (∀ a ∈ w, isWordCode a = true) →
    collapseAux false (w ++ t) = w ++ collapseAux false t
  | [], t => fun _ => rfl
  | a :: w', t => by
    intro hw
    have ha : isSpaceCode a = false := word_not_space (hw a (List.mem_cons_self _ _))
    have heq : collapseAux false (a :: (w' ++ t)) = a :: collapseAux false (w' ++ t) := by
      show (if isSpaceCode a = true then
        (if false = true then collapseAux true (w' ++ t)
          else 32 :: collapseAux true (w' ++ t))
        else a :: collapseAux false (w' ++ t)) = a :: collapseAux false (w' ++ t)
      rw [if_neg (by rw [ha]; simp)]
    rw [List.cons_append, heq,
      collapseAux_word_prefix w' t (fun b hb => hw b (List.mem_cons_of_mem _ hb))]
    rfl

/-- Collapsing preserves non-word-headedness. -/
theorem bOk_collapseAux {l : List Nat} (hb : bOk l = true) :
    bOk (collapseAux false l) = true := by
  cases l with
  | nil => rfl
  | cons x xs =>
    have hx : isWordCode x = false := by
      have hbc : bOk (x :: xs) = !isWordCode x := rfl
      rw [hbc] at hb
      simpa using hb
    by_cases hs : isSpaceCode x = true
    · have heq : collapseAux false (x :: xs) = 32 :: collapseAux true xs := by
        show (if isSpaceCode x = true then
          (if false = true then collapseAux true xs else 32 :: collapseAux true xs)
          else x :: collapseAux false xs) = 32 :: collapseAux true xs
        rw [if_pos hs, if_neg (by simp)]
      rw [heq]
      rfl
    · have heq : collapseAux false (x :: xs) = x :: collapseAux false xs := by
        show (if isSpaceCode x = true then
          (if false = true then collapseAux true xs else 32 :: collapseAux true xs)
          else x :: collapseAux false xs) = x :: collapseAux false xs
        rw [if_neg hs]
      rw [heq]
      have hbc : bOk (x :: collapseAux false xs) = !isWordCode x := rfl
      rw [hbc, hx]
      rfl

/-- Whitespace collapsing does not change the word runs. -/
theorem wordRuns_collapseAux : ∀ (l : List Nat) (b : Bool),
    wordRuns (collapseAux b l) = wordRuns l
  | [], b => rfl
  | c :: rest, b => by
    by_cases hs : isSpaceCode c = true
    · have hcw : isWordCode c = false := space_not_word hs
      cases b with
      | true =>
        have heq : collapseAux true (c :: rest) = collapseAux true rest := by
          show (if isSpaceCode c = true then
            (if true = true then collapseAux true rest else 32 :: collapseAux true rest)
            else c :: collapseAux false rest) = collapseAux true rest
          rw [if_pos hs, if_pos rfl]
        rw [heq, wordRuns_collapseAux rest true, wordRuns_cons_nonword hcw]
      | false =>
        have heq : collapseAux false (c :: rest) = 32 :: collapseAux true rest := by
          show (if isSpaceCode c = true then
            (if false = true then collapseAux true rest else 32 :: collapseAux true rest)
            else c :: collapseAux false rest) = 32 :: collapseAux true rest
          rw [if_pos hs, if_neg (by simp)]
        rw [heq, wordRuns_cons_nonword (by decide), wordRuns_collapseAux rest true,
          wordRuns_cons_nonword hcw]
    · have heq : collapseAux b (c :: rest) = c :: collapseAux false rest := by
        show (if isSpaceCode c = true then
          (if b = true then collapseAux true rest else 32 :: collapseAux true rest)
          else c :: collapseAux false rest) = c :: collapseAux false rest
        rw [if_neg hs]
      rw [heq]
      by_cases hc : isWordCode c = true
      · have hsplit : rest.takeWhile isWordCode ++ rest.dropWhile isWordCode = rest :=
          List.takeWhile_append_dropWhile _ _
        have htww : ∀ a ∈ rest.takeWhile isWordCode, isWordCode a = true :=
          fun a ha => List.mem_takeWhile_imp ha
        have hbdw : bOk (rest.dropWhile isWordCode) = true := bOk_dropWhile rest
        have hstep : collapseAux false rest
            = rest.takeWhile isWordCode
              ++ collapseAux false (rest.dropWhile isWordCode) := by
          conv_lhs => rw [← hsplit]
          exact collapseAux_word_prefix _ _ htww
        rw [hstep]
        have hleft : wordRuns (c :: (rest.takeWhile isWordCode
              ++ collapseAux false (rest.dropWhile isWordCode)))
            = (c :: rest.takeWhile isWordCode)
              :: wordRuns (collapseAux false (rest.dropWhile isWordCode)) := by
          have happ := wordRuns_append
            (w := c :: rest.takeWhile isWordCode)
            (X := collapseAux false (rest.dropWhile isWordCode))
            (by simp)
            (by
              intro a ha
              rcases List.mem_cons.mp ha with rfl | ha2
              · exact hc
              · exact htww a ha2)
            (bOk_collapseAux hbdw)
          simpa using happ
        have hright : wordRuns (c :: rest)
            = (c :: rest.takeWhile isWordCode) :: wordRuns (rest.dropWhile isWordCode) :=
          wordRuns_cons_word hc
        rw [hleft, hright, wordRuns_collapseAux (rest.dropWhile isWordCode) false]
      · have hc' : isWordCode c = false := by simpa using hc
        rw [wordRuns_cons_nonword hc', wordRuns_cons_nonword hc',
          wordRuns_collapseAux rest false]
termination_by l b => l.length
decreasing_by
  · simp only [List.length_cons]
    omega
  · simp only [List.length_cons]
    omega
  · have hle : ∀ m : List Nat, (m.dropWhile isWordCode).length ≤ m.length :=
      fun m => (List.dropWhile_sublist _).length_le
    refine lt_of_le_of_lt (hle _) ?_
    simp only [List.length_cons]
    omega
  · simp only [List.length_cons]
    omega

/-- A non-word character is none of the letters of `sarah`. -/
theorem nonword_ne_sarah {c : Nat} (hc : isWordCode c = false) :
    c ≠ 115 ∧ c ≠ 97 ∧ c ≠ 114 ∧ c ≠ 104 := by
  refine ⟨?_, ?_, ?_, ?_⟩ <;> (intro h; subst h; exact absurd hc (by decide))

/-- `replSarah` distributes over a split at a non-word character: no match
spans it, since `sarah` consists of word characters only. -/
theorem replSarah_append_nonword :
    ∀ (x : List Nat) (c : Nat) (y : List Nat), isWordCode c = false →
      replSarah (x ++ c :: y) = replSarah x ++ c :: replSarah y
  | [], c, y => by
    intro hc
    obtain ⟨h115, h97, h114, h104⟩ := nonword_ne_sarah hc
    match y with
    | [] => rfl
    | [b1] => rfl
    | [b1, b2] => rfl
    | [b1, b2, b3] => rfl
    | b1 :: b2 :: b3 :: b4 :: y' =>
      show (if c = 115 ∧ b1 = 97 ∧ b2 = 114 ∧ b3 = 97 ∧ b4 = 104 then
          115 :: 97 :: 114 :: 97 :: replSarah y'
        else c :: replSarah (b1 :: b2 :: b3 :: b4 :: y'))
        = [] ++ c :: replSarah (b1 :: b2 :: b3 :: b4 :: y')
      rw [if_neg fun hcon => h115 hcon.1]
      rfl
  | [a1], c, y => by
    intro hc
    obtain ⟨h115, h97, h114, h104⟩ := nonword_ne_sarah hc
    match y with
    | [] => rfl
    | [b1] => rfl
    | [b1, b2] => rfl
    | b1 :: b2 :: b3 :: y' =>
      show (if a1 = 115 ∧ c = 97 ∧ b1 = 114 ∧ b2 = 97 ∧ b3 = 104 then
          115 :: 97 :: 114 :: 97 :: replSarah y'
        else a1 :: replSarah (c :: b1 :: b2 :: b3 :: y'))
        = [a1] ++ c :: replSarah (b1 :: b2 :: b3 :: y')
      have hih := replSarah_append_nonword [] c (b1 :: b2 :: b3 :: y') hc
      simp only [List.nil_append] at hih
      rw [if_neg fun hcon => h97 hcon.2.1, hih]
      rfl
  | [a1, a2], c, y => by
    intro hc
    obtain ⟨h115, h97, h114, h104⟩ := nonword_ne_sarah hc
    match y with
    | [] => rfl
    | [b1] => rfl
    | b1 :: b2 :: y' =>
      show (if a1 = 115 ∧ a2 = 97 ∧ c = 114 ∧ b1 = 97 ∧ b2 = 104 then
          115 :: 97 :: 114 :: 97 :: replSarah y'
        else a1 :: replSarah (a2 :: c :: b1 :: b2 :: y'))
        = [a1, a2] ++ c :: replSarah (b1 :: b2 :: y')
      have hih := replSarah_append_nonword [a2] c (b1 :: b2 :: y') hc
      simp only [List.cons_append, List.nil_append] at hih
      rw [if_neg fun hcon => h114 hcon.2.2.1, hih]
      rfl
  | [a1, a2, a3], c, y => by
    intro hc
    obtain ⟨h115, h97, h114, h104⟩ := nonword_ne_sarah hc
    match y with
    | [] => rfl
    | b1 :: y' =>
      show (if a1 = 115 ∧ a2 = 97 ∧ a3 = 114 ∧ c = 97 ∧ b1 = 104 then
          115 :: 97 :: 114 :: 97 :: replSarah y'
        else a1 :: replSarah (a2 :: a3 :: c :: b1 :: y'))
        = [a1, a2, a3] ++ c :: replSarah (b1 :: y')
      have hih := replSarah_append_nonword [a2, a3] c (b1 :: y') hc
      simp only [List.cons_append, List.nil_append] at hih
      rw [if_neg fun hcon => h97 hcon.2.2.2.1, hih]
      rfl
  | [a1, a2, a3, a4], c, y => by
    intro hc
    obtain ⟨h115, h97, h114, h104⟩ := nonword_ne_sarah hc
    show (if a1 = 115 ∧ a2 = 97 ∧ a3 = 114 ∧ a4 = 97 ∧ c = 104 then
        115 :: 97 :: 114 :: 97 :: replSarah y
      else a1 :: replSarah (a2 :: a3 :: a4 :: c :: y))
      = [a1, a2, a3, a4] ++ c :: replSarah y
    have hih := replSarah_append_nonword [a2, a3, a4] c y hc
    simp only [List.cons_append, List.nil_append] at hih
    rw [if_neg fun hcon => h104 hcon.2.2.2.2, hih]
    rfl
  | a1 :: a2 :: a3 :: a4 :: a5 :: x', c, y => by
    intro hc
    by_cases hs : a1 = 115 ∧ a2 = 97 ∧ a3 = 114 ∧ a4 = 97 ∧ a5 = 104
    · have hl : replSarah ((a1 :: a2 :: a3 :: a4 :: a5 :: x') ++ c :: y)
          = 115 :: 97 :: 114 :: 97 :: replSarah (x' ++ c :: y) := by
        show (if a1 = 115 ∧ a2 = 97 ∧ a3 = 114 ∧ a4 = 97 ∧ a5 = 104 then
            115 :: 97 :: 114 :: 97 :: replSarah (x' ++ c :: y)
          else a1 :: replSarah (a2 :: a3 :: a4 :: a5 :: (x' ++ c :: y)))
          = 115 :: 97 :: 114 :: 97 :: replSarah (x' ++ c :: y)
        rw [if_pos hs]
      have hr : replSarah (a1 :: a2 :: a3 :: a4 :: a5 :: x')
          = 115 :: 97 :: 114 :: 97 :: replSarah x' := by
        show (if a1 = 115 ∧ a2 = 97 ∧ a3 = 114 ∧ a4 = 97 ∧ a5 = 104 then
            115 :: 97 :: 114 :: 97 :: replSarah x'
          else a1 :: replSarah (a2 :: a3 :: a4 :: a5 :: x'))
          = 115 :: 97 :: 114 :: 97 :: replSarah x'
        rw [if_pos hs]
      rw [List.cons_append, List.cons_append, List.cons_append, List.cons_append,
        List.cons_append] at hl ⊢
      rw [hl, hr, replSarah_append_nonword x' c y hc]
      rfl
    · have hl : replSarah ((a1 :: a2 :: a3 :: a4 :: a5 :: x') ++ c :: y)
          = a1 :: replSarah ((a2 :: a3 :: a4 :: a5 :: x') ++ c :: y) := by
        show (if a1 = 115 ∧ a2 = 97 ∧ a3 = 114 ∧ a4 = 97 ∧ a5 = 104 then
            115 :: 97 :: 114 :: 97 :: replSarah (x' ++ c :: y)
          else a1 :: replSarah (a2 :: a3 :: a4 :: a5 :: (x' ++ c :: y)))
          = a1 :: replSarah ((a2 :: a3 :: a4 :: a5 :: x') ++ c :: y)
        rw [if_neg hs]
        rfl
      have hr : replSarah (a1 :: a2 :: a3 :: a4 :: a5 :: x')
          = a1 :: replSarah (a2 :: a3 :: a4 :: a5 :: x') := by
        show (if a1 = 115 ∧ a2 = 97 ∧ a3 = 114 ∧ a4 = 97 ∧ a5 = 104 then
            115 :: 97 :: 114 :: 97 :: replSarah x'
          else a1 :: replSarah (a2 :: a3 :: a4 :: a5 :: x'))
          = a1 :: replSarah (a2 :: a3 :: a4 :: a5 :: x')
        rw [if_neg hs]
      have hih := replSarah_append_nonword (a2 :: a3 :: a4 :: a5 :: x') c y hc
      simp only [List.cons_append, List.nil_append] at hih
      simp only [List.cons_append] at hl ⊢
      rw [hl, hih, hr]
      rfl

/-- `replSarah` of a non-empty string is non-empty. -/
theorem replSarah_ne_nil {l : List Nat} (h : l ≠ []) : replSarah l ≠ [] := by
  intro habs
  have hh := replSarah_head l
  rw [habs] at hh
  cases l with
  | nil => exact h rfl
  | cons c rest => exact Option.noConfusion hh

/-- Word runs after the `sarah → sara` replacement are the replacements of
the original word runs: the replacement never touches a non-word character,
so run boundaries are unchanged. -/
theorem wordRuns_replSarah : ∀ l : List Nat, wordRuns (replSarah l) = (wordRuns l).map replSarah
  | [] => by
    rw [show replSarah [] = [] from rfl, wordRuns_nil]
    rfl
  | c :: rest => by
    by_cases hc : isWordCode c = true
    · have hsplit : rest.takeWhile isWordCode ++ rest.dropWhile isWordCode = rest :=
        List.takeWhile_append_dropWhile _ _
      cases hdw : rest.dropWhile isWordCode with
      | nil =>
        have hresttw : rest.takeWhile isWordCode = rest := by
          conv_rhs => rw [← hsplit, hdw, List.append_nil]
        have hallw : ∀ a ∈ c :: rest, isWordCode a = true := by
          intro a ha
          rcases List.mem_cons.mp ha with rfl | ha2
          · exact hc
          · rw [← hresttw] at ha2
            exact List.mem_takeWhile_imp ha2
        have h1 : wordRuns (c :: rest) = [c :: rest] :=
          wordRuns_all_word (by simp) hallw
        have h2 : wordRuns (replSarah (c :: rest)) = [replSarah (c :: rest)] :=
          wordRuns_all_word (replSarah_ne_nil (by simp))
            (fun a ha => hallw a (replSarah_subset _ a ha))
        rw [h1, h2]
        rfl
      | cons x dw' =>
        have hx : isWordCode x = false := by
          have hb := bOk_dropWhile rest
          rw [hdw] at hb
          have hbc : bOk (x :: dw') = !isWordCode x := rfl
          rw [hbc] at hb
          simpa using hb
        have hldecomp : c :: rest = (c :: rest.takeWhile isWordCode) ++ x :: dw' := by
          rw [List.cons_append]
          rw [← hdw, hsplit]
        have hwctw : ∀ a ∈ c :: rest.takeWhile isWordCode, isWordCode a = true := by
          intro a ha
          rcases List.mem_cons.mp ha with rfl | ha2
          · exact hc
          · exact List.mem_takeWhile_imp ha2
        have hrepl := replSarah_append_nonword (c :: rest.takeWhile isWordCode) x dw' hx
        have hlruns : wordRuns (replSarah (c :: rest))
            = replSarah (c :: rest.takeWhile isWordCode) :: wordRuns (replSarah dw') := by
          rw [hldecomp, hrepl]
          have happ := wordRuns_append
            (w := replSarah (c :: rest.takeWhile isWordCode))
            (X := x :: replSarah dw')
            (replSarah_ne_nil (by simp))
            (fun a ha => hwctw a (replSarah_subset _ a ha))
            (by
              have hbc : bOk (x :: replSarah dw') = !isWordCode x := rfl
              rw [hbc, hx]
              rfl)
          rw [happ, wordRuns_cons_nonword hx]
        have hrruns : wordRuns (c :: rest)
            = (c :: rest.takeWhile isWordCode) :: wordRuns dw' := by
          conv_lhs => rw [hldecomp]
          have happ := wordRuns_append
            (w := c :: rest.takeWhile isWordCode)
            (X := x :: dw')
            (by simp)
            hwctw
            (by
              have hbc : bOk (x :: dw') = !isWordCode x := rfl
              rw [hbc, hx]
              rfl)
          rw [happ, wordRuns_cons_nonword hx]
        rw [hlruns, hrruns, List.map_cons, wordRuns_replSarah dw']
    · have hc' : isWordCode c = false := by simpa using hc
      have hce : replSarah (c :: rest) = c :: replSarah rest := by
        have h := replSarah_append_nonword [] c rest hc'
        rw [List.nil_append] at h
        rw [h, show replSarah [] = ([] : List Nat) from rfl, List.nil_append]
      rw [hce, wordRuns_cons_nonword hc', wordRuns_cons_nonword hc',
        wordRuns_replSarah rest]
termination_by l => l.length
decreasing_by
  · have hle : ∀ m : List Nat, (m.dropWhile isWordCode).length ≤ m.length :=
      fun m => (List.dropWhile_sublist _).length_le
    have h1 := hle rest
    rw [hdw] at h1
    simp only [List.length_cons] at h1 ⊢
    omega
  · simp only [List.length_cons]
    omega

/-- `replSarah` never shrinks a string of length at least 4 below 4. -/
theorem replSarah_length_ge : ∀ t : List Nat, 4 ≤ t.length → 4 ≤ (replSarah t).length
  | [] => by intro h; simp at h
  | [a] => by intro h; simp at h
  | [a, b] => by intro h; simp at h
  | [a, b, c] => by intro h; simp at h
  | [a, b, c, d] => by intro _; simp [replSarah]
  | a :: b :: c :: d :: e :: rest => by
    intro _
    by_cases hs : a = 115 ∧ b = 97 ∧ c = 114 ∧ d = 97 ∧ e = 104
    · have heq : replSarah (a :: b :: c :: d :: e :: rest)
          = 115 :: 97 :: 114 :: 97 :: replSarah rest := by
        show (if a = 115 ∧ b = 97 ∧ c = 114 ∧ d = 97 ∧ e = 104 then
            115 :: 97 :: 114 :: 97 :: replSarah rest
          else a :: replSarah (b :: c :: d :: e :: rest))
          = 115 :: 97 :: 114 :: 97 :: replSarah rest
        rw [if_pos hs]
      rw [heq]
      simp only [List.length_cons]
      omega
    · have heq : replSarah (a :: b :: c :: d :: e :: rest)
          = a :: replSarah (b :: c :: d :: e :: rest) := by
        show (if a = 115 ∧ b = 97 ∧ c = 114 ∧ d = 97 ∧ e = 104 then
            115 :: 97 :: 114 :: 97 :: replSarah rest
          else a :: replSarah (b :: c :: d :: e :: rest))
          = a :: replSarah (b :: c :: d :: e :: rest)
        rw [if_neg hs]
      rw [heq]
      have hrec := replSarah_length_ge (b :: c :: d :: e :: rest)
        (by simp only [List.length_cons]; omega)
      simp only [List.length_cons] at hrec ⊢
      omega

/-- The replacement of a non-token run is not a token: an unchanged run stays
a non-token, and a changed run has length at least 4. -/
theorem replSarah_notin_toks : ∀ r : List Nat, r ∉ degToks → replSarah r ∉ degToks
  | [] => fun h => h
  | [a] => fun h => h
  | [a, b] => fun h => h
  | [a, b, c] => fun h => h
  | [a, b, c, d] => fun h => h
  | a :: b :: c :: d :: e :: rest => by
    intro _
    by_cases hs : a = 115 ∧ b = 97 ∧ c = 114 ∧ d = 97 ∧ e = 104
    · have heq : replSarah (a :: b :: c :: d :: e :: rest)
          = 115 :: 97 :: 114 :: 97 :: replSarah rest := by
        show (if a = 115 ∧ b = 97 ∧ c = 114 ∧ d = 97 ∧ e = 104 then
            115 :: 97 :: 114 :: 97 :: replSarah rest
          else a :: replSarah (b :: c :: d :: e :: rest))
          = 115 :: 97 :: 114 :: 97 :: replSarah rest
        rw [if_pos hs]
      rw [heq]
      refine long_not_tok ?_
      simp only [List.length_cons]
      omega
    · have heq : replSarah (a :: b :: c :: d :: e :: rest)
          = a :: replSarah (b :: c :: d :: e :: rest) := by
        show (if a = 115 ∧ b = 97 ∧ c = 114 ∧ d = 97 ∧ e = 104 then
            115 :: 97 :: 114 :: 97 :: replSarah rest
          else a :: replSarah (b :: c :: d :: e :: rest))
          = a :: replSarah (b :: c :: d :: e :: rest)
        rw [if_neg hs]
      rw [heq]
      refine long_not_tok ?_
      have hrec := replSarah_length_ge (b :: c :: d :: e :: rest)
        (by simp only [List.length_cons]; omega)
      simp only [List.length_cons] at hrec ⊢
      omega

/-- `replSarah` preserves token-freedom. -/
theorem tokenFree_replSarah {l : List Nat} (h : tokenFree l) : tokenFree (replSarah l) := by
  intro r hr
  rw [wordRuns_replSarah] at hr
  obtain ⟨r0, hr0, rfl⟩ := List.mem_map.mp hr
  exact replSarah_notin_toks r0 (h r0 hr0)

/-- Removing leading whitespace does not change the word runs. -/
theorem wordRuns_stripLead : ∀ l : List Nat, wordRuns (stripLead l) = wordRuns l
  | [] => rfl
  | c :: rest => by
    unfold stripLead
    rw [List.dropWhile_cons]
    by_cases hs : isSpaceCode c = true
    · rw [if_pos hs, wordRuns_cons_nonword (space_not_word hs)]
      exact wordRuns_stripLead rest
    · rw [if_neg hs]

/-- `stripTrail` passes an all-word prefix through. -/
theorem stripTrail_word_prefix : ∀ (w t : List Nat), (∀ a ∈ w, isWordCode a = true) →
    stripTrail (w ++ t) = w ++ stripTrail t
  | [], t => fun _ => rfl
  | a :: w', t => by
    intro hw
    have ha : isSpaceCode a = false := word_not_space (hw a (List.mem_cons_self _ _))
    have hih := stripTrail_word_prefix w' t (fun b hb => hw b (List.mem_cons_of_mem _ hb))
    show (if stripTrail (w' ++ t) = [] ∧ isSpaceCode a = true then []
      else a :: stripTrail (w' ++ t)) = (a :: w') ++ stripTrail t
    rw [if_neg fun hcon => absurd hcon.2 (by simp [ha]), hih]
    rfl

/-- A string whose trailing strip is empty is all whitespace. -/
theorem stripTrail_eq_nil_all_space : ∀ l : List Nat, stripTrail l = [] →
    ∀ c ∈ l, isSpaceCode c = true
  | [] => by
    intro _ c hc
    simp at hc
  | c0 :: rest => by
    intro h c hc
    by_cases hcut : stripTrail rest = [] ∧ isSpaceCode c0 = true
    · rcases List.mem_cons.mp hc with rfl | h2
      · exact hcut.2
      · exact stripTrail_eq_nil_all_space rest hcut.1 c h2
    · have hkeep : stripTrail (c0 :: rest) = c0 :: stripTrail rest := by
        show (if stripTrail rest = [] ∧ isSpaceCode c0 = true then []
          else c0 :: stripTrail rest) = c0 :: stripTrail rest
        rw [if_neg hcut]
      rw [hkeep] at h
      exact absurd h (by simp)

/-- An all-whitespace string has no word runs. -/
theorem wordRuns_all_space : ∀ l : List Nat, (∀ c ∈ l, isSpaceCode c = true) →
    wordRuns l = []
  | [] => fun _ => wordRuns_nil
  | c :: rest => by
    intro h
    rw [wordRuns_cons_nonword (space_not_word (h c (List.mem_cons_self _ _)))]
    exact wordRuns_all_space rest (fun d hd => h d (List.mem_cons_of_mem _ hd))

/-- Removing trailing whitespace does not change the word runs. -/
theorem wordRuns_stripTrail : ∀ l : List Nat, wordRuns (stripTrail l) = wordRuns l
  | [] => rfl
  | c :: rest => by
    by_cases hc : isWordCode c = true
    · have hsplit : rest.takeWhile isWordCode ++ rest.dropWhile isWordCode = rest :=
        List.takeWhile_append_dropWhile _ _
      have hwctw : ∀ a ∈ c :: rest.takeWhile isWordCode, isWordCode a = true := by
        intro a ha
        rcases List.mem_cons.mp ha with rfl | ha2
        · exact hc
        · exact List.mem_takeWhile_imp ha2
      have hldecomp : c :: rest
          = (c :: rest.takeWhile isWordCode) ++ rest.dropWhile isWordCode := by
        rw [List.cons_append, hsplit]
      cases hdw : rest.dropWhile isWordCode with
      | nil =>
        have hresttw : rest.takeWhile isWordCode = rest := by
          conv_rhs => rw [← hsplit, hdw, List.append_nil]
        have hallw : ∀ a ∈ c :: rest, isWordCode a = true := by
          intro a ha
          rcases List.mem_cons.mp ha with rfl | ha2
          · exact hc
          · rw [← hresttw] at ha2
            exact List.mem_takeWhile_imp ha2
        have hst : stripTrail (c :: rest) = c :: rest := by
          have hwp := stripTrail_word_prefix (c :: rest) [] hallw
          rw [List.append_nil] at hwp
          rw [hwp, show stripTrail [] = [] from rfl, List.append_nil]
        rw [hst]
      | cons x dw' =>
        have hx : isWordCode x = false := by
          have hb := bOk_dropWhile rest
          rw [hdw] at hb
          have hbc : bOk (x :: dw') = !isWordCode x := rfl
          rw [hbc] at hb
          simpa using hb
        have hbX : bOk (x :: dw') = true := by
          have hbc : bOk (x :: dw') = !isWordCode x := rfl
          rw [hbc, hx]
          rfl
        have hst : stripTrail (c :: rest)
            = (c :: rest.takeWhile isWordCode) ++ stripTrail (x :: dw') := by
          conv_lhs => rw [hldecomp, hdw]
          exact stripTrail_word_prefix _ _ hwctw
        have hrruns : wordRuns (c :: rest)
            = (c :: rest.takeWhile isWordCode) :: wordRuns dw' := by
          conv_lhs => rw [hldecomp, hdw]
          rw [wordRuns_append (by simp) hwctw hbX, wordRuns_cons_nonword hx]
        by_cases hcut : stripTrail dw' = [] ∧ isSpaceCode x = true
        · have hstx : stripTrail (x :: dw') = [] := by
            show (if stripTrail dw' = [] ∧ isSpaceCode x = true then []
              else x :: stripTrail dw') = []
            rw [if_pos hcut]
          rw [hst, hstx, List.append_nil]
          rw [wordRuns_all_word (by simp) hwctw, hrruns]
          rw [wordRuns_all_space dw' (stripTrail_eq_nil_all_space dw' hcut.1)]
        · have hstx : stripTrail (x :: dw') = x :: stripTrail dw' := by
            show (if stripTrail dw' = [] ∧ isSpaceCode x = true then []
              else x :: stripTrail dw') = x :: stripTrail dw'
            rw [if_neg hcut]
          rw [hst, hstx]
          rw [wordRuns_append (by simp) hwctw
            (by
              have hbc : bOk (x :: stripTrail dw') = !isWordCode x := rfl
              rw [hbc, hx]
              rfl)]
          rw [wordRuns_cons_nonword hx, wordRuns_stripTrail dw', hrruns]
    · have hc' : isWordCode c = false := by simpa using hc
      by_cases hcut : stripTrail rest = [] ∧ isSpaceCode c = true
      · have hcutq : stripTrail (c :: rest) = [] := by
          show (if stripTrail rest = [] ∧ isSpaceCode c = true then []
            else c :: stripTrail rest) = []
          rw [if_pos hcut]
        rw [hcutq, wordRuns_nil, wordRuns_cons_nonword hc']
        rw [wordRuns_all_space rest (stripTrail_eq_nil_all_space rest hcut.1)]
      · have hkeep : stripTrail (c :: rest) = c :: stripTrail rest := by
          show (if stripTrail rest = [] ∧ isSpaceCode c = true then []
            else c :: stripTrail rest) = c :: stripTrail rest
          rw [if_neg hcut]
        rw [hkeep, wordRuns_cons_nonword hc', wordRuns_cons_nonword hc',
          wordRuns_stripTrail rest]
termination_by l => l.length
decreasing_by
  · have hle : ∀ m : List Nat, (m.dropWhile isWordCode).length ≤ m.length :=
      fun m => (List.dropWhile_sublist _).length_le
    have h1 := hle rest
    rw [hdw] at h1
    simp only [List.length_cons] at h1 ⊢
    omega
  · simp only [List.length_cons]
    omega

/-- The normalized string is token-free: the first pass removed every
whole-word degree token, and the later stages cannot create one. -/
theorem tokenFree_normalizeName (l : List Nat) : tokenFree (normalizeName l) := by
  unfold normalizeName pyStrip collapseWs
  intro r hr
  rw [wordRuns_stripLead, wordRuns_stripTrail, wordRuns_replSarah] at hr
  obtain ⟨r0, hr0, rfl⟩ := List.mem_map.mp hr
  rw [wordRuns_collapseAux] at hr0
  exact replSarah_notin_toks r0 (subDeg_tokenFree _ r0 hr0)

/-- The normalized string is in collapsed-whitespace form. -/
theorem collapsedB_normalizeName (l : List Nat) : collapsedB (normalizeName l) = true := by
  unfold normalizeName pyStrip collapseWs
  exact collapsed_stripLead _
    (collapsed_stripTrail (collapsed_replSarah _ (collapse_collapsed _ false)))

/-- C3 (amended): normalization is idempotent on every input whose normalized
form contains neither `"dr"` nor `"sarah"` as a substring.  (The
counterexample `"sarahh"` shows these exclusions are necessary.) -/
theorem C3_normalize_idempotent_away_from_dr_sarah (l : List Nat)
    (hdr : containsSeq (codes "dr") (normalizeName l) = false)
    (hsarah : containsSeq (codes "sarah") (normalizeName l) = false) :
    normalizeName (normalizeName l) = normalizeName l := by
  have h1 : lowerL (normalizeName l) = normalizeName l := lowerL_normalizeName l
  have h2 : subDr (normalizeName l) = normalizeName l := subDr_id _ hdr
  have h3 : subPunct (normalizeName l) = normalizeName l := subPunct_normalizeName l
  have h4 : subDeg false (normalizeName l) = normalizeName l := by
    refine subDeg_id _ false ?_
    unfold degPre
    rw [if_neg (show ¬((false : Bool) = true) by simp)]
    exact tokenFree_normalizeName l
  have h5 : collapseWs (normalizeName l) = normalizeName l := by
    unfold collapseWs
    exact collapseAux_id _ (collapsedB_normalizeName l)
  have h6 : replSarah (normalizeName l) = normalizeName l := replSarah_id _ hsarah
  have h7 : pyStrip (normalizeName l) = normalizeName l := by
    unfold normalizeName
    exact pyStrip_idem _
  conv_lhs => rw [normalizeName]
  rw [h1, h2, h3, h4, h5, h6, h7]

/-- Witness for C3 (amended) at a typical doctor name: `"Dr. Sara Johnson, MD"`
normalizes to `"sara johnson"`, which contains neither `"dr"` nor `"sarah"`,
and a second normalization pass leaves it unchanged. -/
theorem C3_witness :
    containsSeq (codes "dr") (normalizeName (codes "Dr. Sara Johnson, MD")) = false ∧
    containsSeq (codes "sarah") (normalizeName (codes "Dr. Sara Johnson, MD")) = false ∧
    normalizeName (normalizeName (codes "Dr. Sara Johnson, MD"))
      = normalizeName (codes "Dr. Sara Johnson, MD") :=
  ⟨by decide, by decide,
    C3_normalize_idempotent_away_from_dr_sarah (codes "Dr. Sara Johnson, MD")
      (by decide) (by decide)⟩

end Scraper
